import Mathlib

/-!
Verification development for a Python implementation of the ID3 decision-tree
algorithm (`id3.py`).

Shallow embedding choices:
* Python dicts (insertion ordered, unique keys) are modelled as association
  lists `List (A × V)`; lookup returns the first matching pair, dict equality
  is order-insensitive map equality, and `pop` removes the key.
* The recursive builder `id3_helper` is embedded with an explicit fuel
  argument (`id3_helper fuel`); fuel sufficiency — the recursion depth bound —
  is proved rather than assumed.
* Float entropy is given exact real-number semantics.  Since the algorithm
  only ever *compares* entropies, the executable builder compares the
  strictly monotone exponential transform `attrWeight : ℚ`
  (entropy = log2 of that rational); the bridge to the literal
  `-count * log2 (count / group_size)` sum of the source is proved.
* `infer` (Python `__call__`) returns `InferResult`: `keyError` models the
  propagated `KeyError`, `noResult` models the `None` sentinel.
* The single mutation site of the builder (lines 191-196 of the source, the
  copy-then-pop in partitioning) is additionally modelled against an explicit
  heap of dictionaries to state the no-mutation frame property.
-/

namespace ID3

/-- A Python dict from attribute names to attribute values, as an
insertion-ordered association list. -/
abbrev Assignment (A V : Type) := List (A × V)

/-- A list of exemplars: (inputs, output) pairs. -/
abbrev Exemplars (A V O : Type) := List (Assignment A V × O)

variable {A V O : Type}

/-- Python `d[k]` (as an `Option`): value of the first pair with key `k`. -/
def dictLookup [DecidableEq A] (d : Assignment A V) (k : A) : Option V :=
  (d.find? (fun p => p.1 = k)).map (fun p => p.2)

/-- Python `d.keys()` as a list in insertion order. -/
def keysOf (d : Assignment A V) : List A := d.map Prod.fst

/-- The dict that `inputs.pop(attr)` leaves behind: all pairs whose key is
not `k`. -/
def dictPop [DecidableEq A] (d : Assignment A V) (k : A) : Assignment A V :=
  d.filter (fun p => p.1 ≠ k)

/-- Python dict equality `d1 == d2`: order-insensitive equality as maps. -/
def dictEq [DecidableEq A] [DecidableEq V] (d1 d2 : Assignment A V) : Bool :=
  (d1.all (fun p => dictLookup d2 p.1 = some p.2)) &&
    (d2.all (fun p => dictLookup d1 p.1 = some p.2))

/-- Python `d[k] = v`: update in place if the key exists, else append. -/
def dictInsert [DecidableEq A] (d : Assignment A V) (k : A) (v : V) :
    Assignment A V :=
  if (d.any (fun p => p.1 = k)) then
    d.map (fun p => if p.1 = k then (p.1, v) else p)
  else d ++ [(k, v)]

/-- A subtree of an ID3 decision tree: either a terminal (an output value, or
`none` for Python's `None` leaf / absent tree) or an internal
`ID3DecisionTreeNode` carrying an attribute name and its ordered
`value_subnode_pairs`. -/
inductive ID3Subtree (A V O : Type) : Type where
  | term (t : Option O) : ID3Subtree A V O
  | node (name : A) (value_subnode_pairs : List (V × ID3Subtree A V O)) :
      ID3Subtree A V O

/-- `ID3DecisionTree`: wraps the root, which is a node, an output value, or
`None` (built from zero exemplars). -/
structure ID3DecisionTree (A V O : Type) : Type where
  root_node : ID3Subtree A V O

/-- `ID3DecisionTreeNode.get_subnode_for_input`: first pair whose value equals
the input value, `none` if no pair matches. -/
def get_subnode_for_input [DecidableEq V] :
    List (V × ID3Subtree A V O) → V → Option (ID3Subtree A V O)
  | [], _ => none
  | (v, sub) :: rest, input =>
    if input = v then some sub else get_subnode_for_input rest input

/-- Outcome of `ID3DecisionTree.__call__`: a raised `KeyError`, the `None`
"no result" sentinel, or an output value. -/
inductive InferResult (O : Type) : Type where
  | keyError : InferResult O
  | noResult : InferResult O
  | found (o : O) : InferResult O
deriving DecidableEq

mutual

/-- `ID3DecisionTree.__call__` body: follow the node for
`inputs[node.name]` until a leaf is reached.  A missing key is the raised
`KeyError`; an unmatched value ends the loop with the `None` sentinel.
The scan of `value_subnode_pairs` (the body of `get_subnode_for_input`,
fused here for structural recursion and proved equal to it below) is
`callPairs`. -/
def callNode [DecidableEq A] [DecidableEq V] :
    ID3Subtree A V O → Assignment A V → InferResult O
  | ID3Subtree.term none, _ => InferResult.noResult
  | ID3Subtree.term (some o), _ => InferResult.found o
  | ID3Subtree.node name pairs, inputs =>
    match dictLookup inputs name with
    | none => InferResult.keyError
    | some v => callPairs pairs v inputs

/-- The loop of `get_subnode_for_input` continued with the traversal of the
subnode it returns. -/
def callPairs [DecidableEq A] [DecidableEq V] :
    List (V × ID3Subtree A V O) → V → Assignment A V → InferResult O
  | [], _, _ => InferResult.noResult
  | (v0, sub) :: rest, input, inputs =>
    if input = v0 then callNode sub inputs else callPairs rest input inputs

end

/-- `ID3DecisionTree.__call__`. -/
def treeCall [DecidableEq A] [DecidableEq V] (t : ID3DecisionTree A V O)
    (inputs : Assignment A V) : InferResult O :=
  callNode t.root_node inputs

/-- `ID3DecisionTree.validate`: replay every exemplar; `none` models an
exception escaping from `self(inputs)`. -/
def validate [DecidableEq A] [DecidableEq V] [DecidableEq O]
    (t : ID3DecisionTree A V O) : Exemplars A V O → Option Bool
  | [] => some true
  | (inputs, output) :: rest =>
    match treeCall t inputs with
    | InferResult.keyError => none
    | InferResult.noResult => some false
    | InferResult.found o => if o = output then validate t rest else some false

/-- The outputs of a list of exemplars, in order. -/
def outputsOf (exs : Exemplars A V O) : List O := exs.map Prod.snd

/-- The `inputs_all_same` nested-loop check of `id3_helper`: every pair of
exemplars has (dict-)equal inputs. -/
def inputsAllSame [DecidableEq A] [DecidableEq V] (exs : Exemplars A V O) :
    Bool :=
  exs.all (fun e0 => exs.all (fun e1 => dictEq e0.1 e1.1))

/-- The majority-vote loop of `id3_helper`: starting from
`(most_common, most_common_count) = (None, 0)`, scan the distinct outputs and
keep the one whose occurrence count strictly exceeds the best so far.
Python iterates `set(outputs)`; the unordered set traversal is determinised
here to first-occurrence order (`dedup`). -/
def mostCommon [DecidableEq O] (outputs : List O) : Option O :=
  (outputs.dedup.foldl
    (fun acc o =>
      if outputs.count o > acc.2 then (some o, outputs.count o) else acc)
    ((none : Option O), 0)).1

/-- `attr_values`: the set of values the attribute takes across the
exemplars, determinised to first-occurrence order. -/
def attrValues [DecidableEq A] [DecidableEq V] (exs : Exemplars A V O)
    (attr : A) : List V :=
  (exs.filterMap (fun e => dictLookup e.1 attr)).dedup

/-- The `partitions` dict of `id3_helper`: for each observed value of `attr`,
the sub-list of exemplars having that value, each with `attr` popped from a
copy of its inputs.  (An exemplar lacking `attr` would raise `KeyError` in
Python; it contributes to no group here.) -/
def attrPartition [DecidableEq A] [DecidableEq V] (exs : Exemplars A V O)
    (attr : A) : List (V × Exemplars A V O) :=
  (attrValues exs attr).map (fun v =>
    (v, exs.filterMap (fun e =>
      match dictLookup e.1 attr with
      | some v' => if v' = v then some (dictPop e.1 attr, e.2) else none
      | none => none)))

/-- One group of the `partitions` dict: the exemplars whose value of `attr`
is `v`, with `attr` popped (the body of the filterMap in `attrPartition`). -/
def groupOf [DecidableEq A] [DecidableEq V] (exs : Exemplars A V O) (attr : A)
    (v : V) : Exemplars A V O :=
  exs.filterMap (fun e =>
    match dictLookup e.1 attr with
    | some v' => if v' = v then some (dictPop e.1 attr, e.2) else none
    | none => none)

/-- Exponential transform of one group's entropy contribution:
`prod over distinct outputs o of (group_size / count o) ^ count o`.
Its base-2 logarithm is the group's
`sum of -count * log2 (count / group_size)` (proved below), so comparing
these rationals is comparing entropies. -/
def groupWeight [DecidableEq O] (outs : List O) : ℚ :=
  (outs.dedup.map (fun o =>
    (((outs.length : ℚ) / (outs.count o : ℚ)) ^ (outs.count o)))).prod

/-- Exponential transform of `attr_entropy`: the product of the group
weights over the partition induced by `attr`. -/
def attrWeight [DecidableEq A] [DecidableEq V] [DecidableEq O]
    (exs : Exemplars A V O) (attr : A) : ℚ :=
  ((attrPartition exs attr).map (fun p => groupWeight (outputsOf p.2))).prod

/-- The best-attribute loop of `id3_helper`: scan the candidate attributes in
order, keeping the stored score of the best so far and replacing it only on a
strictly smaller score (`attr_entropy < best_attr['entropy']`; the first
candidate always installs itself via `not best_attr`).  Scores are compared
through the order-preserving transform `attrWeight`. -/
def bestAttrStep [DecidableEq A] [DecidableEq V] [DecidableEq O]
    (exs : Exemplars A V O) (best : Option (A × ℚ)) (attr : A) :
    Option (A × ℚ) :=
  match best with
  | none => some (attr, attrWeight exs attr)
  | some (b, wb) =>
    if attrWeight exs attr < wb then some (attr, attrWeight exs attr)
    else some (b, wb)

def bestAttrFold [DecidableEq A] [DecidableEq V] [DecidableEq O]
    (exs : Exemplars A V O) (attrs : List A) : Option (A × ℚ) :=
  attrs.foldl (bestAttrStep exs) none

/-- One unfolding of the body of `id3_helper`, with `rec` standing for the
recursive calls: the empty check, the pure check, the exhausted-attributes
majority vote, and attribute selection followed by recursion on the
partition.  (With an empty candidate list Python would raise a `TypeError`
on `best_attr['partitions']`; that unreachable-in-contract branch is the
`none` case of the match.) -/
def id3_step [DecidableEq A] [DecidableEq V] [DecidableEq O]
    (rec : Exemplars A V O → ID3Subtree A V O) (exs : Exemplars A V O) :
    ID3Subtree A V O :=
  match exs with
  | [] => ID3Subtree.term none
  | (d0, o0) :: rest =>
    if ((outputsOf ((d0, o0) :: rest)).dedup).length = 1 then
      ID3Subtree.term (some o0)
    else if inputsAllSame ((d0, o0) :: rest) then
      ID3Subtree.term (mostCommon (outputsOf ((d0, o0) :: rest)))
    else
      match bestAttrFold ((d0, o0) :: rest) (keysOf d0) with
      | none => ID3Subtree.term none
      | some (b, _) =>
        ID3Subtree.node b
          ((attrPartition ((d0, o0) :: rest) b).map (fun p => (p.1, rec p.2)))

/-- `id3_helper`, indexed by fuel: each unit of fuel allows one level of
recursion.  Sufficiency of the fuel used by `id3` is proved below (the
recursion depth bound of the source). -/
def id3_helper [DecidableEq A] [DecidableEq V] [DecidableEq O] :
    ℕ → Exemplars A V O → ID3Subtree A V O
  | 0, _ => ID3Subtree.term none
  | fuel + 1, exs => id3_step (id3_helper fuel) exs

/-- The longest input-assignment length among the exemplars; the recursion
depth of `id3_helper` is bounded by it. -/
def maxLen (exs : Exemplars A V O) : ℕ :=
  exs.foldr (fun e m => max e.1.length m) 0

/-- `id3`: build the decision tree (with provably sufficient fuel). -/
def id3 [DecidableEq A] [DecidableEq V] [DecidableEq O]
    (exs : Exemplars A V O) : ID3DecisionTree A V O :=
  ⟨id3_helper (maxLen exs + 1) exs⟩

/-- One group's contribution to `attr_entropy` in the source
(lines 201-204), in exact real arithmetic:
`for output in set(outputs): attr_entropy -= count * log2 (count / len)`. -/
noncomputable def groupEntropy [DecidableEq O] (outs : List O) : ℝ :=
  (outs.dedup.map (fun o =>
    -((outs.count o : ℝ) *
      Real.logb 2 ((outs.count o : ℝ) / (outs.length : ℝ))))).sum

/-- `attr_entropy` of the source (lines 198-204), in exact real arithmetic:
the sum of the group entropies over the partition induced by `attr`. -/
noncomputable def attrEntropy [DecidableEq A] [DecidableEq V] [DecidableEq O]
    (exs : Exemplars A V O) (attr : A) : ℝ :=
  ((attrPartition exs attr).map (fun p => groupEntropy (outputsOf p.2))).sum

mutual

/-- The nested `get_inputs` of `ID3DecisionTree.get_inputs_for_output`:
depth-first traversal accumulating the attribute-to-value choice of each
visited internal node, emitting a copy of the partial assignment at each
terminal equal to `output`.  (Python only ever calls it on internal nodes;
on a terminal there is no pair to iterate, giving `[]`.) -/
def getInputs [DecidableEq A] [DecidableEq V] [DecidableEq O] (output : O) :
    ID3Subtree A V O → Assignment A V → List (Assignment A V)
  | ID3Subtree.term _, _ => []
  | ID3Subtree.node name pairs, input => getInputsPairs output name pairs input

/-- The loop of `get_inputs` over `value_subnode_pairs`: results of each
branch in order.  `input[node.name] = value` is re-done at each iteration, so
each branch works on `dictInsert input name v`. -/
def getInputsPairs [DecidableEq A] [DecidableEq V] [DecidableEq O] (output : O)
    (name : A) :
    List (V × ID3Subtree A V O) → Assignment A V → List (Assignment A V)
  | [], _ => []
  | (v, sub) :: rest, input =>
    (match sub with
     | ID3Subtree.node n2 ps2 =>
       getInputs output (ID3Subtree.node n2 ps2) (dictInsert input name v)
     | ID3Subtree.term t =>
       if t = some output then [dictInsert input name v] else []) ++
    getInputsPairs output name rest input

end

/-- `ID3DecisionTree.get_inputs_for_output`: empty unless the root is an
internal node, else the DFS enumeration starting from the empty partial
assignment. -/
def get_inputs_for_output [DecidableEq A] [DecidableEq V] [DecidableEq O]
    (t : ID3DecisionTree A V O) (output : O) : List (Assignment A V) :=
  match t.root_node with
  | ID3Subtree.term _ => []
  | ID3Subtree.node name pairs =>
    getInputs output (ID3Subtree.node name pairs) []

mutual

/-- All attribute names appearing at internal nodes of a subtree. -/
def treeNames : ID3Subtree A V O → List A
  | ID3Subtree.term _ => []
  | ID3Subtree.node name pairs => name :: pairsNames pairs

/-- All attribute names appearing in a list of value-subnode pairs. -/
def pairsNames : List (V × ID3Subtree A V O) → List A
  | [] => []
  | (_, sub) :: rest => treeNames sub ++ pairsNames rest

end

/-- All attribute names appearing in any exemplar's assignment. -/
def allKeysOf (exs : Exemplars A V O) : List A :=
  exs.foldr (fun e acc => keysOf e.1 ++ acc) []

/-- Structural well-formedness of trees built by `id3`: the values of a
node's pairs are distinct, and a node's attribute name recurs in none of its
subtrees. -/
inductive WFSubtree : ID3Subtree A V O → Prop where
  | term (t : Option O) : WFSubtree (ID3Subtree.term t)
  | node (name : A) (pairs : List (V × ID3Subtree A V O))
      (hvals : (pairs.map Prod.fst).Nodup)
      (hsub : ∀ p ∈ pairs, WFSubtree p.2)
      (hname : ∀ p ∈ pairs, name ∉ treeNames p.2) :
      WFSubtree (ID3Subtree.node name pairs)

/-- The nodes visited by the `__call__` traversal of `inputs`: `t` itself,
and one step through `get_subnode_for_input` at each visited internal node
whose name `inputs` supplies. -/
inductive Reaches [DecidableEq A] [DecidableEq V] (inputs : Assignment A V) :
    ID3Subtree A V O → ID3Subtree A V O → Prop where
  | refl (t : ID3Subtree A V O) : Reaches inputs t t
  | step {t : ID3Subtree A V O} {name : A}
      {pairs : List (V × ID3Subtree A V O)} {v : V} {sub : ID3Subtree A V O} :
      Reaches inputs t (ID3Subtree.node name pairs) →
      dictLookup inputs name = some v →
      get_subnode_for_input pairs v = some sub →
      Reaches inputs t sub

/-- A heap of Python dict objects: the address of a dict is its index, and
`dict(inputs)` allocates a copy at the next free address. -/
abbrev Heap (A V : Type) := List (Assignment A V)

/-- Dereference a dict address. -/
def heapGet (σ : Heap A V) (r : ℕ) : Option (Assignment A V) := σ.get? r

/-- Overwrite the dict object at an address (in-place mutation). -/
def heapSet (σ : Heap A V) (r : ℕ) (d : Assignment A V) : Heap A V := σ.set r d

/-- The partitioning loop of `id3_helper` (source lines 193-196), against the
explicit heap: for each exemplar (a dict address paired with an output),
`inputs = dict(inputs)` allocates a copy at a fresh address, and
`inputs.pop(attr)` mutates that fresh copy in place; the popped value selects
the partition the copy's address is appended to.  (A missing `attr` would
raise `KeyError` from `pop`; that exemplar extends no partition.) -/
def partitionLoop [DecidableEq A] [DecidableEq V] (attr : A)
    (init : Heap A V × List (V × List (ℕ × O))) (exRefs : List (ℕ × O)) :
    Heap A V × List (V × List (ℕ × O)) :=
  exRefs.foldl
    (fun st e =>
      match heapGet st.1 e.1 with
      | none => st
      | some d =>
        let r' := st.1.length
        let σ1 := st.1 ++ [d]
        match dictLookup d attr with
        | none => (σ1, st.2)
        | some v =>
          (heapSet σ1 r' (dictPop d attr),
           st.2.map (fun p => if p.1 = v then (p.1, p.2 ++ [(r', e.2)]) else p)))
    init

/-! ### Dictionary lemmas -/

theorem dictLookup_nil [DecidableEq A] (k : A) :
    dictLookup ([] : Assignment A V) k = none := rfl

theorem dictLookup_cons [DecidableEq A] (p : A × V) (d : Assignment A V)
    (k : A) :
    dictLookup (p :: d) k = if p.1 = k then some p.2 else dictLookup d k := by
  simp only [dictLookup, List.find?_cons]
  by_cases h : p.1 = k <;> simp [h]

theorem dictLookup_isSome_iff_mem_keys [DecidableEq A] (d : Assignment A V)
    (k : A) : (dictLookup d k).isSome ↔ k ∈ keysOf d := by
  induction d with
  | nil => simp [dictLookup_nil, keysOf]
  | cons p rest ih =>
    rw [dictLookup_cons]
    by_cases hk : p.1 = k
    · simp [keysOf, hk]
    · simp [keysOf, hk, Ne.symm hk] at ih ⊢
      exact ih

theorem dictLookup_pop [DecidableEq A] (d : Assignment A V) (b k : A) :
    dictLookup (dictPop d b) k = if k = b then none else dictLookup d k := by
  induction d with
  | nil => simp [dictLookup_nil, dictPop]
  | cons p rest ih =>
    rw [dictPop, List.filter_cons]
    rw [dictPop] at ih
    by_cases hb : p.1 = b
    · have hdrop : (decide (p.1 ≠ b)) = false := by simp [hb]
      rw [hdrop, if_neg (by simp), ih, dictLookup_cons]
      by_cases hk : k = b
      · simp [hk]
      · have : ¬ p.1 = k := by rw [hb]; exact fun hh => hk hh.symm
        simp [hk, this]
    · have hkeep : (decide (p.1 ≠ b)) = true := by simp [hb]
      rw [hkeep, if_pos rfl, dictLookup_cons, dictLookup_cons, ih]
      by_cases hpk : p.1 = k
      · have hkb : ¬ k = b := fun hh => hb (hpk.symm ▸ hh ▸ rfl)
        simp [hpk, hkb]
      · by_cases hk : k = b <;> simp [hpk, hk, hb]

theorem mem_keys_pop [DecidableEq A] (d : Assignment A V) (b k : A) :
    k ∈ keysOf (dictPop d b) ↔ k ∈ keysOf d ∧ k ≠ b := by
  rw [← dictLookup_isSome_iff_mem_keys, ← dictLookup_isSome_iff_mem_keys,
    dictLookup_pop]
  by_cases hk : k = b <;> simp [hk]

theorem keysOf_pop [DecidableEq A] (d : Assignment A V) (b : A) :
    keysOf (dictPop d b) = (keysOf d).filter (fun k => k ≠ b) := by
  induction d with
  | nil => simp [dictPop, keysOf]
  | cons p rest ih =>
    by_cases hb : p.1 = b <;>
      simp [dictPop, keysOf, List.filter_cons, hb] at ih ⊢ <;> exact ih

theorem nodup_keys_pop [DecidableEq A] (d : Assignment A V) (b : A)
    (h : (keysOf d).Nodup) : (keysOf (dictPop d b)).Nodup := by
  rw [keysOf_pop]
  exact h.filter _

theorem dictLookup_of_mem_nodup [DecidableEq A] {d : Assignment A V}
    (hnd : (keysOf d).Nodup) {k : A} {v : V} (h : (k, v) ∈ d) :
    dictLookup d k = some v := by
  induction d with
  | nil => simp at h
  | cons p rest ih =>
    simp only [keysOf, List.map_cons, List.nodup_cons] at hnd
    rw [dictLookup_cons]
    rcases List.mem_cons.mp h with h1 | h2
    · subst h1; simp
    · have hpk : ¬ p.1 = k := by
        intro hh
        exact hnd.1 (hh ▸ (List.mem_map.mpr ⟨(k, v), h2, rfl⟩))
      simp [hpk]
      exact ih hnd.2 h2

theorem dictLookup_mem [DecidableEq A] {d : Assignment A V} {k : A} {v : V}
    (h : dictLookup d k = some v) : (k, v) ∈ d := by
  induction d with
  | nil => simp [dictLookup_nil] at h
  | cons p rest ih =>
    rw [dictLookup_cons] at h
    by_cases hpk : p.1 = k
    · simp [hpk] at h
      have hpv : (k, v) = p := by
        obtain ⟨pa, pb⟩ := p
        simp at hpk h
        simp [hpk, h]
      exact List.mem_cons.mpr (Or.inl hpv)
    · simp [hpk] at h
      exact List.mem_cons.mpr (Or.inr (ih h))

theorem dictEq_iff_lookup_eq [DecidableEq A] [DecidableEq V]
    {d1 d2 : Assignment A V} (h1 : (keysOf d1).Nodup)
    (h2 : (keysOf d2).Nodup) :
    dictEq d1 d2 = true ↔ ∀ k, dictLookup d1 k = dictLookup d2 k := by
  constructor
  · intro h k
    rw [dictEq, Bool.and_eq_true, List.all_eq_true, List.all_eq_true] at h
    cases hv : dictLookup d1 k with
    | none =>
      cases hw : dictLookup d2 k with
      | none => rfl
      | some w =>
        have := h.2 (k, w) (dictLookup_mem hw)
        simp only [decide_eq_true_eq] at this
        rw [hv] at this
        exact absurd this (by simp)
    | some v =>
      have := h.1 (k, v) (dictLookup_mem hv)
      simp only [decide_eq_true_eq] at this
      exact this.symm
  · intro h
    rw [dictEq, Bool.and_eq_true, List.all_eq_true, List.all_eq_true]
    constructor
    · intro p hp
      simp only [decide_eq_true_eq]
      rw [← h p.1]
      exact dictLookup_of_mem_nodup h1 hp
    · intro p hp
      simp only [decide_eq_true_eq]
      rw [h p.1]
      exact dictLookup_of_mem_nodup h2 hp

theorem length_pop_lt [DecidableEq A] {d : Assignment A V} {b : A} {v : V}
    (h : dictLookup d b = some v) : (dictPop d b).length < d.length := by
  refine List.length_filter_lt_length_iff_exists.mpr ?h
  exact ⟨(b, v), dictLookup_mem h, by simp⟩

theorem dictLookup_map_update [DecidableEq A] (d : Assignment A V) (k k2 : A)
    (v : V) :
    dictLookup (d.map (fun p => if p.1 = k then (p.1, v) else p)) k2 =
      if k2 = k then (dictLookup d k).map (fun _ => v) else dictLookup d k2 := by
  induction d with
  | nil => by_cases hk : k2 = k <;> simp [dictLookup_nil, hk]
  | cons p rest ih =>
    rw [List.map_cons]
    by_cases hpk : p.1 = k
    · rw [if_pos hpk, dictLookup_cons, dictLookup_cons, dictLookup_cons, ih]
      by_cases hk2 : k2 = k
      · have hp2 : p.1 = k2 := by rw [hpk, hk2]
        simp [hp2, hpk, hk2]
      · have hp2 : ¬ p.1 = k2 := by rw [hpk]; exact fun hh => hk2 hh.symm
        have hk2' : ¬ k = k2 := fun hh => hk2 hh.symm
        simp [hp2, hpk, hk2, hk2']
    · rw [if_neg hpk, dictLookup_cons, dictLookup_cons, dictLookup_cons, ih]
      by_cases hpk2 : p.1 = k2
      · have hk2 : ¬ k2 = k := fun hh => hpk (hpk2.symm ▸ hh ▸ rfl)
        simp [hpk2, hk2]
      · simp [hpk2, hpk]

theorem dictLookup_append_single [DecidableEq A] (d : Assignment A V)
    (k k2 : A) (v : V) :
    dictLookup (d ++ [(k, v)]) k2 =
      match dictLookup d k2 with
      | some w => some w
      | none => if k = k2 then some v else none := by
  induction d with
  | nil => simp [dictLookup_nil, dictLookup_cons]
  | cons p rest ih =>
    rw [List.cons_append, dictLookup_cons, dictLookup_cons]
    by_cases hpk : p.1 = k2 <;> simp [hpk, ih]

theorem dictLookup_insert [DecidableEq A] (d : Assignment A V) (k k2 : A)
    (v : V) :
    dictLookup (dictInsert d k v) k2 =
      if k2 = k then some v else dictLookup d k2 := by
  rw [dictInsert]
  by_cases hany : d.any (fun p => p.1 = k)
  · rw [if_pos hany, dictLookup_map_update]
    by_cases hk2 : k2 = k
    · simp only [hk2, if_true]
      rw [List.any_eq_true] at hany
      obtain ⟨p, hp, hpk⟩ := hany
      simp only [decide_eq_true_eq] at hpk
      have : (dictLookup d k).isSome := by
        rw [dictLookup_isSome_iff_mem_keys]
        exact hpk ▸ List.mem_map.mpr ⟨p, hp, rfl⟩
      cases hl : dictLookup d k with
      | none => rw [hl] at this; simp at this
      | some w => simp
    · simp [hk2]
  · rw [if_neg hany, dictLookup_append_single]
    by_cases hk2 : k2 = k
    · subst hk2
      have hnone : dictLookup d k2 = none := by
        cases hl : dictLookup d k2 with
        | none => rfl
        | some w =>
          exact absurd (List.any_eq_true.mpr ⟨(k2, w), dictLookup_mem hl,
            by simp⟩) hany
      simp [hnone]
    · have hk2' : ¬ k = k2 := fun hh => hk2 hh.symm
      cases hl : dictLookup d k2 with
      | none => simp [hk2, hk2', hl]
      | some w => simp [hk2, hl]

/-! ### Claim C10 and Claim C9 -/

/-- Claim C10: for every tree — including the empty tree built from zero
exemplars — `validate` applied to an empty collection of exemplars returns
`True`: the agreement check is vacuously satisfied. -/
theorem validate_nil_exemplars [DecidableEq A] [DecidableEq V]
    [DecidableEq O] :
    (∀ t : ID3DecisionTree A V O, validate t [] = some true) ∧
    validate (id3 ([] : Exemplars A V O)) [] = some true :=
  ⟨fun _ => rfl, rfl⟩

/-- Claim C9: the partitioning loop of `id3_helper` — the only place where
construction touches the exemplars' dictionaries — copies each input
assignment (`inputs = dict(inputs)`) to a fresh heap address and pops the
attribute from that copy only, so the heap is unchanged at every
pre-existing address; in particular every caller-supplied assignment is
unchanged after `id3` returns. -/
theorem partitionLoop_frame [DecidableEq A] [DecidableEq V] :
    ∀ (exRefs : List (ℕ × O)) (σ : Heap A V)
      (parts : List (V × List (ℕ × O))) (attr : A) (r : ℕ),
      r < σ.length →
      heapGet (partitionLoop attr (σ, parts) exRefs).1 r = heapGet σ r := by
  intro exRefs
  induction exRefs with
  | nil => intro σ parts attr r hr; rfl
  | cons e rest ih =>
    intro σ parts attr r hr
    simp only [partitionLoop, List.foldl_cons] at *
    cases hσ : heapGet σ e.1 with
    | none =>
      simp only [hσ]
      exact ih σ parts attr r hr
    | some d =>
      simp only [hσ]
      cases hl : dictLookup d attr with
      | none =>
        simp only [hl]
        have hr' : r < (σ ++ [d]).length := by
          simp [List.length_append]; omega
        rw [ih (σ ++ [d]) parts attr r hr']
        exact List.get?_append hr
      | some v =>
        simp only [hl]
        have hr' : r < (heapSet (σ ++ [d]) σ.length (dictPop d attr)).length := by
          simp [heapSet, List.length_append]
          omega
        rw [ih _ _ attr r hr']
        rw [heapSet, heapGet, List.get?_set_ne _ _ (by omega)]
        exact List.get?_append hr

/-- Witness for `partitionLoop_frame` at a concrete heap: address 0 holds a
dict before the loop and still holds it afterwards. -/
theorem partitionLoop_frame_witness :
    0 < ([[(1, 2)]] : Heap ℕ ℕ).length ∧
    heapGet (partitionLoop (O := ℕ) 1 (([[(1, 2)]] : Heap ℕ ℕ), [(2, [])])
      [(0, 5)]).1 0 = heapGet ([[(1, 2)]] : Heap ℕ ℕ) 0 :=
  ⟨by decide, partitionLoop_frame [(0, 5)] [[(1, 2)]] [(2, [])] 1 0 (by decide)⟩

/-! ### Claim C4: the majority-vote base case -/

theorem mostCommon_foldl_spec [DecidableEq O] (l : List O) :
    ∀ (todo : List O) (cur : Option O × ℕ),
      (∀ m, cur.1 = some m → cur.2 = l.count m ∧ m ∈ l) →
      (cur.1 = none → cur.2 = 0) →
      (∀ o ∈ todo, o ∈ l) →
      (∀ m, (todo.foldl
          (fun acc o => if l.count o > acc.2 then (some o, l.count o) else acc)
          cur).1 = some m →
        (todo.foldl
          (fun acc o => if l.count o > acc.2 then (some o, l.count o) else acc)
          cur).2 = l.count m ∧ m ∈ l) ∧
      ((todo.foldl
          (fun acc o => if l.count o > acc.2 then (some o, l.count o) else acc)
          cur).1 = none →
        (todo.foldl
          (fun acc o => if l.count o > acc.2 then (some o, l.count o) else acc)
          cur).2 = 0) ∧
      (∀ o ∈ todo, l.count o ≤ (todo.foldl
          (fun acc o => if l.count o > acc.2 then (some o, l.count o) else acc)
          cur).2) := by
  intro todo
  induction todo with
  | nil =>
    intro cur h1 h0 _
    exact ⟨h1, h0, by simp⟩
  | cons o rest ih =>
    intro cur h1 h0 htodo
    simp only [List.foldl_cons]
    by_cases hgt : l.count o > cur.2
    · rw [if_pos hgt]
      have h1' : ∀ m, (some o, l.count o).1 = some m →
          (some o, l.count o).2 = l.count m ∧ m ∈ l := by
        intro m hm
        simp at hm
        subst hm
        exact ⟨rfl, htodo o (by simp)⟩
      have h0' : (some o, l.count o).1 = none → (some o, l.count o).2 = 0 := by
        simp
      obtain ⟨g1, g0, g2⟩ := ih (some o, l.count o) h1' h0'
        (fun x hx => htodo x (by simp [hx]))
      refine ⟨g1, g0, ?h⟩
      intro x hx
      rcases List.mem_cons.mp hx with hx1 | hx2
      · subst hx1
        -- count x = the accumulator value entering the rest of the fold,
        -- which never decreases
        have hmono : ∀ (t : List O) (c : Option O × ℕ), c.2 ≤ (t.foldl
            (fun acc o => if l.count o > acc.2 then (some o, l.count o)
              else acc) c).2 := by
          intro t
          induction t with
          | nil => intro c; simp
          | cons y t ih2 =>
            intro c
            simp only [List.foldl_cons]
            by_cases hy : l.count y > c.2
            · rw [if_pos hy]
              have := ih2 (some y, l.count y)
              simp at this ⊢
              omega
            · rw [if_neg hy]
              exact ih2 c
        exact hmono rest (some x, l.count x)
      · exact g2 x hx2
    · rw [if_neg hgt]
      obtain ⟨g1, g0, g2⟩ := ih cur h1 h0 (fun x hx => htodo x (by simp [hx]))
      refine ⟨g1, g0, ?h⟩
      intro x hx
      rcases List.mem_cons.mp hx with hx1 | hx2
      · subst hx1
        have hmono : ∀ (t : List O) (c : Option O × ℕ), c.2 ≤ (t.foldl
            (fun acc o => if l.count o > acc.2 then (some o, l.count o)
              else acc) c).2 := by
          intro t
          induction t with
          | nil => intro c; simp
          | cons y t ih2 =>
            intro c
            simp only [List.foldl_cons]
            by_cases hy : l.count y > c.2
            · rw [if_pos hy]
              have := ih2 (some y, l.count y)
              simp at this ⊢
              omega
            · rw [if_neg hy]
              exact ih2 c
        have := hmono rest cur
        omega
      · exact g2 x hx2

theorem mostCommon_spec [DecidableEq O] (l : List O) (hne : l ≠ []) :
    ∃ m, mostCommon l = some m ∧ m ∈ l ∧ ∀ o ∈ l, l.count o ≤ l.count m := by
  obtain ⟨g1, g0, g2⟩ := mostCommon_foldl_spec l l.dedup ((none : Option O), 0)
    (by simp) (by simp) (fun o ho => (List.mem_dedup).mp ho)
  obtain ⟨a, ha⟩ := List.exists_mem_of_ne_nil l hne
  have hcnt : 0 < l.count a := List.count_pos_iff_mem.mpr ha
  cases hres : (l.dedup.foldl
      (fun acc o => if l.count o > acc.2 then (some o, l.count o) else acc)
      ((none : Option O), 0)).1 with
  | none =>
    have h2 := g2 a (List.mem_dedup.mpr ha)
    rw [g0 hres] at h2
    omega
  | some m =>
    obtain ⟨hc, hm⟩ := g1 m hres
    refine ⟨m, ?h1, hm, ?h2⟩
    · rw [mostCommon, hres]
    · intro o ho
      have := g2 o (List.mem_dedup.mpr ho)
      rw [hc] at this
      exact this

/-- Claim C4: in a recursive build call on a non-empty partition whose input
assignments are pairwise identical and which carries more than one distinct
output value, `id3_helper` returns a terminal holding an output of maximal
occurrence count among the partition's outputs (majority vote). -/
theorem id3_majority_vote [DecidableEq A] [DecidableEq V] [DecidableEq O]
    (fuel : ℕ) (d0 : Assignment A V) (o0 : O) (rest : Exemplars A V O)
    (hsame : inputsAllSame ((d0, o0) :: rest) = true)
    (hmulti : 2 ≤ ((outputsOf ((d0, o0) :: rest)).dedup).length) :
    ∃ m, id3_helper (fuel + 1) ((d0, o0) :: rest) = ID3Subtree.term (some m) ∧
      m ∈ outputsOf ((d0, o0) :: rest) ∧
      ∀ o ∈ outputsOf ((d0, o0) :: rest),
        (outputsOf ((d0, o0) :: rest)).count o ≤
          (outputsOf ((d0, o0) :: rest)).count m := by
  have hne : outputsOf ((d0, o0) :: rest) ≠ [] := by simp [outputsOf]
  obtain ⟨m, hmc, hm, hmax⟩ := mostCommon_spec (outputsOf ((d0, o0) :: rest)) hne
  refine ⟨m, ?h, hm, hmax⟩
  show id3_step (id3_helper fuel) ((d0, o0) :: rest) = ID3Subtree.term (some m)
  rw [id3_step]
  rw [if_neg (by omega), if_pos hsame, hmc]

/-- Witness for `id3_majority_vote`: three exemplars with empty assignments
and outputs 0, 0, 1; the majority output 0 is returned. -/
theorem id3_majority_vote_witness :
    inputsAllSame (([([], 0), ([], 0), ([], 1)] : Exemplars ℕ ℕ ℕ)) = true ∧
    2 ≤ ((outputsOf (([([], 0), ([], 0), ([], 1)] : Exemplars ℕ ℕ ℕ))).dedup).length ∧
    ∃ m, id3_helper 1 (([([], 0), ([], 0), ([], 1)] : Exemplars ℕ ℕ ℕ)) =
        ID3Subtree.term (some m) ∧
      m ∈ outputsOf (([([], 0), ([], 0), ([], 1)] : Exemplars ℕ ℕ ℕ)) ∧
      ∀ o ∈ outputsOf (([([], 0), ([], 0), ([], 1)] : Exemplars ℕ ℕ ℕ)),
        (outputsOf (([([], 0), ([], 0), ([], 1)] : Exemplars ℕ ℕ ℕ))).count o ≤
          (outputsOf (([([], 0), ([], 0), ([], 1)] : Exemplars ℕ ℕ ℕ))).count m :=
  ⟨by decide, by decide,
    id3_majority_vote 0 [] 0 [([], 0), ([], 1)] (by decide) (by decide)⟩

/-! ### Claim C5: termination of the recursion, depth bound -/

theorem length_le_maxLen {exs : Exemplars A V O} {e : Assignment A V × O}
    (h : e ∈ exs) : e.1.length ≤ maxLen exs := by
  induction exs with
  | nil => simp at h
  | cons e0 rest ih =>
    rcases List.mem_cons.mp h with h1 | h2
    · subst h1
      simp [maxLen]
    · have := ih h2
      simp only [maxLen, List.foldr_cons] at *
      omega

theorem maxLen_lt_of {exs : Exemplars A V O} {N : ℕ} (hN : 0 < N)
    (h : ∀ e ∈ exs, e.1.length < N) : maxLen exs < N := by
  induction exs with
  | nil => simpa [maxLen] using hN
  | cons e0 rest ih =>
    have h0 := h e0 (by simp)
    have hr := ih (fun e he => h e (by simp [he]))
    simp only [maxLen, List.foldr_cons] at *
    omega

theorem maxLen_le_of {exs : Exemplars A V O} {N : ℕ}
    (h : ∀ e ∈ exs, e.1.length ≤ N) : maxLen exs ≤ N := by
  induction exs with
  | nil => simp [maxLen]
  | cons e0 rest ih =>
    have h0 := h e0 (by simp)
    have hr := ih (fun e he => h e (by simp [he]))
    simp only [maxLen, List.foldr_cons] at *
    omega

theorem mem_of_mem_attrPartition [DecidableEq A] [DecidableEq V]
    {exs : Exemplars A V O} {attr : A} {vp : V × Exemplars A V O}
    (hvp : vp ∈ attrPartition exs attr) {e' : Assignment A V × O}
    (he' : e' ∈ vp.2) :
    ∃ e ∈ exs, dictLookup e.1 attr = some vp.1 ∧
      e' = (dictPop e.1 attr, e.2) := by
  rw [attrPartition] at hvp
  obtain ⟨v, _, hvp⟩ := List.mem_map.mp hvp
  have h1 : vp.1 = v := by rw [← hvp]
  have h2 : vp.2 = exs.filterMap (fun e =>
      match dictLookup e.1 attr with
      | some v' => if v' = v then some (dictPop e.1 attr, e.2) else none
      | none => none) := by rw [← hvp]
  rw [h2] at he'
  obtain ⟨e, he, hge⟩ := List.mem_filterMap.mp he'
  rw [h1]
  split at hge
  case h_1 v' heq =>
    split at hge
    case isTrue hvv =>
      exact ⟨e, he, by rw [heq, hvv], (Option.some.inj hge).symm⟩
    case isFalse hvv => simp at hge
  case h_2 => simp at hge

theorem attrPartition_group_ne_nil [DecidableEq A] [DecidableEq V]
    {exs : Exemplars A V O} {attr : A} {vp : V × Exemplars A V O}
    (hvp : vp ∈ attrPartition exs attr) : vp.2 ≠ [] := by
  rw [attrPartition] at hvp
  obtain ⟨v, hv, hvp⟩ := List.mem_map.mp hvp
  have h2 : vp.2 = exs.filterMap (fun e =>
      match dictLookup e.1 attr with
      | some v' => if v' = v then some (dictPop e.1 attr, e.2) else none
      | none => none) := by rw [← hvp]
  rw [attrValues] at hv
  obtain ⟨e, he, hge⟩ := List.mem_filterMap.mp (List.mem_dedup.mp hv)
  intro hnil
  have hmem : (dictPop e.1 attr, e.2) ∈
      exs.filterMap (fun e =>
        match dictLookup e.1 attr with
        | some v' => if v' = v then some (dictPop e.1 attr, e.2) else none
        | none => none) :=
    List.mem_filterMap.mpr ⟨e, he, by simp [hge]⟩
  rw [← h2, hnil] at hmem
  simp at hmem

theorem maxLen_attrPartition_lt [DecidableEq A] [DecidableEq V]
    {exs : Exemplars A V O} {attr : A} {vp : V × Exemplars A V O}
    (hvp : vp ∈ attrPartition exs attr) {n : ℕ} (hn : maxLen exs ≤ n) :
    maxLen vp.2 < n := by
  have hne := attrPartition_group_ne_nil hvp
  obtain ⟨e', he'⟩ := List.exists_mem_of_ne_nil vp.2 hne
  obtain ⟨e, he, hl, _⟩ := mem_of_mem_attrPartition hvp he'
  have hpos : 0 < n := by
    have hlen1 : 0 < e.1.length := by
      cases hd : e.1 with
      | nil => rw [hd] at hl; simp [dictLookup_nil] at hl
      | cons _ _ => simp
    have hlen2 := length_le_maxLen he
    omega
  apply maxLen_lt_of hpos
  intro f hf
  obtain ⟨g, hg, hgl, hgeq⟩ := mem_of_mem_attrPartition hvp hf
  have hlt : (dictPop g.1 attr).length < g.1.length := length_pop_lt hgl
  have hle := length_le_maxLen hg
  rw [hgeq]
  simp only
  omega

theorem id3_helper_fuel_indep [DecidableEq A] [DecidableEq V] [DecidableEq O] :
    ∀ (f1 f2 : ℕ) (exs : Exemplars A V O), maxLen exs < f1 → maxLen exs < f2 →
      id3_helper f1 exs = id3_helper f2 exs := by
  intro f1
  induction f1 with
  | zero => intro f2 exs h1 _; omega
  | succ a iha =>
    intro f2 exs h1 h2
    cases f2 with
    | zero => omega
    | succ b =>
      show id3_step (id3_helper a) exs = id3_step (id3_helper b) exs
      cases exs with
      | nil => rfl
      | cons e rest =>
        obtain ⟨d0, o0⟩ := e
        rw [id3_step, id3_step]
        by_cases hlen : ((outputsOf ((d0, o0) :: rest)).dedup).length = 1
        · rw [if_pos hlen, if_pos hlen]
        · rw [if_neg hlen, if_neg hlen]
          by_cases hsame : inputsAllSame ((d0, o0) :: rest) = true
          · rw [if_pos hsame, if_pos hsame]
          · rw [if_neg hsame, if_neg hsame]
            cases hbest : bestAttrFold ((d0, o0) :: rest) (keysOf d0) with
            | none => simp only [hbest]
            | some bw =>
              obtain ⟨bb, w⟩ := bw
              simp only [hbest]
              congr 1
              refine List.map_congr_left ?h
              intro p hp
              have hma : maxLen p.2 < a :=
                maxLen_attrPartition_lt hp (by omega)
              have hmb : maxLen p.2 < b :=
                maxLen_attrPartition_lt hp (by omega)
              rw [iha b p.2 hma hmb]

/-- Claim C5: under the same-attribute-set invariant, tree construction
terminates with recursion depth bounded by the number of distinct attribute
names: any fuel beyond `attrs.length` yields exactly the tree `id3`
returns. -/
theorem id3_terminates [DecidableEq A] [DecidableEq V] [DecidableEq O]
    (attrs : List A) (exs : Exemplars A V O) (hA : attrs.Nodup)
    (hnodup : ∀ e ∈ exs, (keysOf e.1).Nodup)
    (hkeys : ∀ e ∈ exs, ∀ k, k ∈ keysOf e.1 → k ∈ attrs) :
    ∀ fuel, attrs.length < fuel → id3_helper fuel exs = (id3 exs).root_node := by
  have hml : maxLen exs ≤ attrs.length := by
    refine maxLen_le_of ?h
    intro e he
    have h1 : e.1.length = (keysOf e.1).length := by simp [keysOf]
    have h2 : (keysOf e.1).length ≤ attrs.length :=
      (List.subperm_of_subset (hnodup e he) (hkeys e he)).length_le
    omega
  intro fuel hf
  show id3_helper fuel exs = id3_helper (maxLen exs + 1) exs
  exact id3_helper_fuel_indep fuel (maxLen exs + 1) exs (by omega) (by omega)

/-- Witness for `id3_terminates`: one attribute, two exemplars; fuel 2
already gives the final tree. -/
theorem id3_terminates_witness :
    ([1] : List ℕ).Nodup ∧
    (∀ e ∈ ([([(1, 0)], 0), ([(1, 1)], 1)] : Exemplars ℕ ℕ ℕ),
      (keysOf e.1).Nodup) ∧
    (∀ e ∈ ([([(1, 0)], 0), ([(1, 1)], 1)] : Exemplars ℕ ℕ ℕ),
      ∀ k, k ∈ keysOf e.1 → k ∈ ([1] : List ℕ)) ∧
    ([1] : List ℕ).length < 2 ∧
    id3_helper 2 ([([(1, 0)], 0), ([(1, 1)], 1)] : Exemplars ℕ ℕ ℕ) =
      (id3 ([([(1, 0)], 0), ([(1, 1)], 1)] : Exemplars ℕ ℕ ℕ)).root_node :=
  ⟨by decide, by decide, by decide, by decide,
    id3_terminates [1] [([(1, 0)], 0), ([(1, 1)], 1)] (by decide) (by decide)
      (by decide) 2 (by decide)⟩

/-! ### Claim C3: the entropy score -/

theorem list_sum_nonneg : ∀ (l : List ℝ), (∀ x ∈ l, 0 ≤ x) → 0 ≤ l.sum := by
  intro l
  induction l with
  | nil => intro _; simp
  | cons x rest ih =>
    intro h
    rw [List.sum_cons]
    exact add_nonneg (h x (by simp)) (ih (fun y hy => h y (by simp [hy])))

theorem list_prod_pos_rat : ∀ (l : List ℚ), (∀ x ∈ l, 0 < x) → 0 < l.prod := by
  intro l
  induction l with
  | nil => intro _; simp
  | cons x rest ih =>
    intro h
    rw [List.prod_cons]
    exact mul_pos (h x (by simp)) (ih (fun y hy => h y (by simp [hy])))

theorem list_prod_pos_real : ∀ (l : List ℝ), (∀ x ∈ l, 0 < x) → 0 < l.prod := by
  intro l
  induction l with
  | nil => intro _; simp
  | cons x rest ih =>
    intro h
    rw [List.prod_cons]
    exact mul_pos (h x (by simp)) (ih (fun y hy => h y (by simp [hy])))

theorem logb_list_prod : ∀ (l : List ℝ), (∀ x ∈ l, 0 < x) →
    Real.logb 2 l.prod = (l.map (Real.logb 2)).sum := by
  intro l
  induction l with
  | nil => intro _; simp
  | cons x rest ih =>
    intro h
    rw [List.prod_cons, List.map_cons, List.sum_cons]
    have hx : x ≠ 0 := ne_of_gt (h x (by simp))
    have hrest : rest.prod ≠ 0 :=
      ne_of_gt (list_prod_pos_real rest (fun y hy => h y (by simp [hy])))
    rw [Real.logb_mul hx hrest, ih (fun y hy => h y (by simp [hy]))]

theorem rat_cast_list_prod : ∀ (l : List ℚ),
    ((l.prod : ℚ) : ℝ) = (l.map (Rat.cast : ℚ → ℝ)).prod := by
  intro l
  induction l with
  | nil => simp
  | cons x rest ih =>
    rw [List.prod_cons, List.map_cons, List.prod_cons, Rat.cast_mul, ih]

theorem count_pos_of_mem_dedup [DecidableEq O] {outs : List O} {o : O}
    (h : o ∈ outs.dedup) : 0 < outs.count o :=
  List.count_pos_iff_mem.mpr (List.mem_dedup.mp h)

theorem length_pos_of_mem_dedup [DecidableEq O] {outs : List O} {o : O}
    (h : o ∈ outs.dedup) : 0 < outs.length :=
  List.length_pos_of_mem (List.mem_dedup.mp h)

theorem groupWeight_pos [DecidableEq O] (outs : List O) :
    0 < groupWeight outs := by
  rw [groupWeight]
  apply list_prod_pos_rat
  intro x hx
  obtain ⟨o, ho, hxo⟩ := List.mem_map.mp hx
  subst hxo
  have hc := count_pos_of_mem_dedup ho
  have hn := length_pos_of_mem_dedup ho
  have hdiv : 0 < (outs.length : ℚ) / (outs.count o : ℚ) := by
    apply div_pos <;> exact_mod_cast (by assumption)
  exact pow_pos hdiv _

theorem attrWeight_pos [DecidableEq A] [DecidableEq V] [DecidableEq O]
    (exs : Exemplars A V O) (attr : A) : 0 < attrWeight exs attr := by
  rw [attrWeight]
  apply list_prod_pos_rat
  intro x hx
  obtain ⟨vp, _, hxo⟩ := List.mem_map.mp hx
  subst hxo
  exact groupWeight_pos _

theorem groupEntropy_eq_logb_groupWeight [DecidableEq O] (outs : List O) :
    Real.logb 2 ((groupWeight outs : ℚ) : ℝ) = groupEntropy outs := by
  rw [groupWeight, groupEntropy, rat_cast_list_prod, List.map_map]
  have hmap : outs.dedup.map
      ((Rat.cast : ℚ → ℝ) ∘
        (fun o => ((outs.length : ℚ) / (outs.count o : ℚ)) ^ outs.count o)) =
      outs.dedup.map
        (fun o => ((outs.length : ℝ) / (outs.count o : ℝ)) ^ outs.count o) := by
    refine List.map_congr_left ?h
    intro o _
    simp only [Function.comp]
    push_cast
    rfl
  rw [hmap, logb_list_prod]
  · rw [List.map_map]
    refine congrArg List.sum (List.map_congr_left ?h2)
    intro o ho
    simp only [Function.comp]
    have hc := count_pos_of_mem_dedup ho
    have hn := length_pos_of_mem_dedup ho
    have hcr : (0 : ℝ) < (outs.count o : ℝ) := by exact_mod_cast hc
    have hnr : (0 : ℝ) < (outs.length : ℝ) := by exact_mod_cast hn
    rw [Real.logb_pow]
    have hflip : (outs.length : ℝ) / (outs.count o : ℝ) =
        ((outs.count o : ℝ) / (outs.length : ℝ))⁻¹ := by
      rw [inv_div]
    rw [hflip, Real.logb_inv]
    ring
  · intro x hx
    obtain ⟨o, ho, hxo⟩ := List.mem_map.mp hx
    subst hxo
    have hc := count_pos_of_mem_dedup ho
    have hn := length_pos_of_mem_dedup ho
    have hdiv : 0 < (outs.length : ℝ) / (outs.count o : ℝ) := by
      apply div_pos <;> exact_mod_cast (by assumption)
    exact pow_pos hdiv _

theorem attrEntropy_eq_logb_attrWeight [DecidableEq A] [DecidableEq V]
    [DecidableEq O] (exs : Exemplars A V O) (attr : A) :
    Real.logb 2 ((attrWeight exs attr : ℚ) : ℝ) = attrEntropy exs attr := by
  rw [attrWeight, attrEntropy, rat_cast_list_prod, List.map_map]
  rw [logb_list_prod]
  · rw [List.map_map]
    refine congrArg List.sum (List.map_congr_left ?h)
    intro vp _
    simp only [Function.comp]
    exact groupEntropy_eq_logb_groupWeight (outputsOf vp.2)
  · intro x hx
    obtain ⟨vp, _, hxo⟩ := List.mem_map.mp hx
    subst hxo
    simp only [Function.comp]
    exact_mod_cast groupWeight_pos (outputsOf vp.2)

theorem groupEntropy_nonneg [DecidableEq O] (outs : List O) :
    0 ≤ groupEntropy outs := by
  rw [groupEntropy]
  apply list_sum_nonneg
  intro x hx
  obtain ⟨o, ho, hxo⟩ := List.mem_map.mp hx
  subst hxo
  have hc := count_pos_of_mem_dedup ho
  have hn := length_pos_of_mem_dedup ho
  have hle : outs.count o ≤ outs.length := List.count_le_length _ _
  have hnonpos : Real.logb 2 ((outs.count o : ℝ) / (outs.length : ℝ)) ≤ 0 := by
    apply Real.logb_nonpos (by norm_num)
    · positivity
    · rw [div_le_one (by exact_mod_cast hn)]
      exact_mod_cast hle
  have hcr : (0 : ℝ) ≤ (outs.count o : ℝ) := by positivity
  nlinarith

theorem attrEntropy_nonneg [DecidableEq A] [DecidableEq V] [DecidableEq O]
    (exs : Exemplars A V O) (attr : A) : 0 ≤ attrEntropy exs attr := by
  rw [attrEntropy]
  apply list_sum_nonneg
  intro x hx
  obtain ⟨vp, _, hxo⟩ := List.mem_map.mp hx
  subst hxo
  exact groupEntropy_nonneg _

theorem groupEntropy_pure [DecidableEq O] (outs : List O)
    (h : (outs.dedup).length = 1) : groupEntropy outs = 0 := by
  obtain ⟨o, ho⟩ := List.length_eq_one.mp h
  have hall : ∀ b ∈ outs, b = o := by
    intro b hb
    have : b ∈ outs.dedup := List.mem_dedup.mpr hb
    rw [ho] at this
    simpa using this
  have hcount : outs.count o = outs.length := by
    rw [List.count_eq_length]
    intro b hb
    exact (hall b hb).symm
  have homem : o ∈ outs := by
    have : o ∈ outs.dedup := by rw [ho]; simp
    exact List.mem_dedup.mp this
  have hn : 0 < outs.length := List.length_pos_of_mem homem
  rw [groupEntropy, ho, List.map_cons, List.map_nil, List.sum_cons,
    List.sum_nil, hcount]
  rw [div_self (ne_of_gt (show (0 : ℝ) < (outs.length : ℝ) by
    exact_mod_cast hn))]
  rw [Real.logb_one]
  ring

/-- Claim C3: for a non-empty exemplar list and any candidate attribute, the
entropy score the builder orders attributes by (as `log2` of the executable
`attrWeight` transform) equals the source's
`sum over groups, over outputs in the group, of -count * log2 (count /
group_size)`; a pure group (one distinct output) contributes zero, and the
score is non-negative. -/
theorem attrEntropy_spec [DecidableEq A] [DecidableEq V] [DecidableEq O]
    (exs : Exemplars A V O) (attr : A) (hne : exs ≠ []) :
    Real.logb 2 ((attrWeight exs attr : ℚ) : ℝ) = attrEntropy exs attr ∧
    0 ≤ attrEntropy exs attr ∧
    ∀ vp ∈ attrPartition exs attr, ((outputsOf vp.2).dedup).length = 1 →
      groupEntropy (outputsOf vp.2) = 0 :=
  ⟨attrEntropy_eq_logb_attrWeight exs attr, attrEntropy_nonneg exs attr,
    fun vp _ hpure => groupEntropy_pure (outputsOf vp.2) hpure⟩

/-- Witness for `attrEntropy_spec` at the two-exemplar, one-attribute
example. -/
theorem attrEntropy_spec_witness :
    (([([(1, 0)], 0), ([(1, 1)], 1)] : Exemplars ℕ ℕ ℕ) ≠ []) ∧
    (Real.logb 2
        ((attrWeight ([([(1, 0)], 0), ([(1, 1)], 1)] : Exemplars ℕ ℕ ℕ) 1 :
          ℚ) : ℝ) =
      attrEntropy ([([(1, 0)], 0), ([(1, 1)], 1)] : Exemplars ℕ ℕ ℕ) 1 ∧
    0 ≤ attrEntropy ([([(1, 0)], 0), ([(1, 1)], 1)] : Exemplars ℕ ℕ ℕ) 1 ∧
    ∀ vp ∈ attrPartition ([([(1, 0)], 0), ([(1, 1)], 1)] : Exemplars ℕ ℕ ℕ) 1,
      ((outputsOf vp.2).dedup).length = 1 →
        groupEntropy (outputsOf vp.2) = 0) :=
  ⟨by decide, attrEntropy_spec [([(1, 0)], 0), ([(1, 1)], 1)] 1 (by decide)⟩

/-! ### Claim C2: attribute selection -/

theorem attrWeight_le_iff [DecidableEq A] [DecidableEq V] [DecidableEq O]
    (exs : Exemplars A V O) (a1 a2 : A) :
    (attrWeight exs a1 ≤ attrWeight exs a2 ↔
      attrEntropy exs a1 ≤ attrEntropy exs a2) := by
  have h1 : (0 : ℝ) < ((attrWeight exs a1 : ℚ) : ℝ) := by
    exact_mod_cast attrWeight_pos exs a1
  have h2 : (0 : ℝ) < ((attrWeight exs a2 : ℚ) : ℝ) := by
    exact_mod_cast attrWeight_pos exs a2
  rw [← attrEntropy_eq_logb_attrWeight exs a1,
    ← attrEntropy_eq_logb_attrWeight exs a2,
    Real.logb_le_logb (by norm_num : (1 : ℝ) < 2) h1 h2]
  constructor
  · intro h; exact_mod_cast h
  · intro h; exact_mod_cast h

theorem attrWeight_lt_iff [DecidableEq A] [DecidableEq V] [DecidableEq O]
    (exs : Exemplars A V O) (a1 a2 : A) :
    (attrWeight exs a1 < attrWeight exs a2 ↔
      attrEntropy exs a1 < attrEntropy exs a2) := by
  have h1 : (0 : ℝ) < ((attrWeight exs a1 : ℚ) : ℝ) := by
    exact_mod_cast attrWeight_pos exs a1
  have h2 : (0 : ℝ) < ((attrWeight exs a2 : ℚ) : ℝ) := by
    exact_mod_cast attrWeight_pos exs a2
  rw [← attrEntropy_eq_logb_attrWeight exs a1,
    ← attrEntropy_eq_logb_attrWeight exs a2,
    Real.logb_lt_logb_iff (by norm_num : (1 : ℝ) < 2) h1 h2]
  constructor
  · intro h; exact_mod_cast h
  · intro h; exact_mod_cast h

theorem bestAttrFold_go [DecidableEq A] [DecidableEq V] [DecidableEq O]
    (exs : Exemplars A V O) :
    ∀ (attrs : List A) (c : A),
      ∃ b, attrs.foldl (bestAttrStep exs) (some (c, attrWeight exs c)) =
          some (b, attrWeight exs b) ∧
        attrWeight exs b ≤ attrWeight exs c ∧
        (∀ a ∈ attrs, attrWeight exs b ≤ attrWeight exs a) ∧
        (b = c ∨ attrWeight exs b < attrWeight exs c ∧
          ∃ pre post, attrs = pre ++ b :: post ∧
            ∀ a ∈ pre, attrWeight exs b < attrWeight exs a) := by
  intro attrs
  induction attrs with
  | nil =>
    intro c
    exact ⟨c, rfl, le_refl _, by simp, Or.inl rfl⟩
  | cons a0 rest ih =>
    intro c
    rw [List.foldl_cons]
    have hstep : bestAttrStep exs (some (c, attrWeight exs c)) a0 =
        if attrWeight exs a0 < attrWeight exs c then
          some (a0, attrWeight exs a0)
        else some (c, attrWeight exs c) := rfl
    rw [hstep]
    by_cases hlt : attrWeight exs a0 < attrWeight exs c
    · rw [if_pos hlt]
      obtain ⟨b, h1, h2, h3, h4⟩ := ih a0
      refine ⟨b, h1, le_trans h2 (le_of_lt hlt), ?_, ?_⟩
      · intro a ha
        rcases List.mem_cons.mp ha with ha0 | har
        · subst ha0; exact h2
        · exact h3 a har
      · right
        rcases h4 with hbc | ⟨hblt, pre, post, hspl, hpre⟩
        · subst hbc
          exact ⟨hlt, [], rest, rfl, by simp⟩
        · refine ⟨lt_trans hblt hlt, a0 :: pre, post, by rw [hspl]; rfl, ?_⟩
          intro a ha
          rcases List.mem_cons.mp ha with ha0 | har
          · subst ha0; exact hblt
          · exact hpre a har
    · rw [if_neg hlt]
      obtain ⟨b, h1, h2, h3, h4⟩ := ih c
      have hca : attrWeight exs c ≤ attrWeight exs a0 := le_of_not_lt hlt
      refine ⟨b, h1, h2, ?_, ?_⟩
      · intro a ha
        rcases List.mem_cons.mp ha with ha0 | har
        · subst ha0; exact le_trans h2 hca
        · exact h3 a har
      · rcases h4 with hbc | ⟨hblt, pre, post, hspl, hpre⟩
        · exact Or.inl hbc
        · refine Or.inr ⟨hblt, a0 :: pre, post, by rw [hspl]; rfl, ?_⟩
          intro a ha
          rcases List.mem_cons.mp ha with ha0 | har
          · subst ha0; exact lt_of_lt_of_le hblt hca
          · exact hpre a har

theorem bestAttrFold_spec [DecidableEq A] [DecidableEq V] [DecidableEq O]
    (exs : Exemplars A V O) (attrs : List A) :
    (attrs = [] ∧ bestAttrFold exs attrs = none) ∨
    ∃ b, bestAttrFold exs attrs = some (b, attrWeight exs b) ∧
      (∀ a ∈ attrs, attrWeight exs b ≤ attrWeight exs a) ∧
      ∃ pre post, attrs = pre ++ b :: post ∧
        ∀ a ∈ pre, attrWeight exs b < attrWeight exs a := by
  cases attrs with
  | nil => exact Or.inl ⟨rfl, rfl⟩
  | cons a0 rest =>
    right
    rw [bestAttrFold, List.foldl_cons]
    have hstep : bestAttrStep exs none a0 = some (a0, attrWeight exs a0) := rfl
    rw [hstep]
    obtain ⟨b, h1, h2, h3, h4⟩ := bestAttrFold_go exs rest a0
    refine ⟨b, h1, ?_, ?_⟩
    · intro a ha
      rcases List.mem_cons.mp ha with ha0 | har
      · subst ha0; exact h2
      · exact h3 a har
    · rcases h4 with hbc | ⟨hblt, pre, post, hspl, hpre⟩
      · subst hbc
        exact ⟨[], rest, rfl, by simp⟩
      · refine ⟨a0 :: pre, post, by rw [hspl]; rfl, ?_⟩
        intro a ha
        rcases List.mem_cons.mp ha with ha0 | har
        · subst ha0; exact hblt
        · exact hpre a har

/-- Claim C2: whenever a recursive build call returns an internal node — the
attribute-selection step — the selected attribute is, among the candidates
(the keys of the first exemplar, in iteration order), one of strictly
smallest entropy score, and every candidate listed before it has a strictly
larger score (so on ties, the first candidate encountered wins). -/
theorem id3_selects_min_entropy [DecidableEq A] [DecidableEq V] [DecidableEq O]
    (fuel : ℕ) (d0 : Assignment A V) (o0 : O) (rest : Exemplars A V O) (b : A)
    (ps : List (V × ID3Subtree A V O))
    (h : id3_helper (fuel + 1) ((d0, o0) :: rest) = ID3Subtree.node b ps) :
    b ∈ keysOf d0 ∧
    (∀ a ∈ keysOf d0,
      attrEntropy ((d0, o0) :: rest) b ≤ attrEntropy ((d0, o0) :: rest) a) ∧
    ∃ pre post, keysOf d0 = pre ++ b :: post ∧
      ∀ a ∈ pre,
        attrEntropy ((d0, o0) :: rest) b < attrEntropy ((d0, o0) :: rest) a := by
  have h' : id3_step (id3_helper fuel) ((d0, o0) :: rest) =
      ID3Subtree.node b ps := h
  rw [id3_step] at h'
  split at h'
  · exact absurd h' (by simp)
  · split at h'
    · exact absurd h' (by simp)
    · split at h'
      · exact absurd h' (by simp)
      case h_2 bb w heq =>
        have hinj := (ID3Subtree.node.injEq _ _ _ _).mp h'
        have hbb : bb = b := hinj.1
        subst hbb
        rcases bestAttrFold_spec ((d0, o0) :: rest) (keysOf d0) with
          ⟨_, hnone⟩ | ⟨b', h1, h2, pre, post, hspl, hpre⟩
        · rw [heq] at hnone; exact absurd hnone (by simp)
        · rw [heq] at h1
          have hb' : b' = bb := ((Prod.mk.injEq _ _ _ _).mp
            (Option.some.inj h1.symm)).1
          subst hb'
          refine ⟨by rw [hspl]; simp, ?_, pre, post, hspl, ?_⟩
          · intro a ha
            exact (attrWeight_le_iff _ _ _).mp (h2 a ha)
          · intro a ha
            exact (attrWeight_lt_iff _ _ _).mp (hpre a ha)

/-- Witness for `id3_selects_min_entropy`: the one-attribute example selects
attribute 1. -/
theorem id3_selects_min_entropy_witness :
    id3_helper 2 ([([(1, 0)], 0), ([(1, 1)], 1)] : Exemplars ℕ ℕ ℕ) =
      ID3Subtree.node 1
        [(0, ID3Subtree.term (some 0)), (1, ID3Subtree.term (some 1))] ∧
    (1 ∈ keysOf [((1 : ℕ), (0 : ℕ))] ∧
    (∀ a ∈ keysOf [((1 : ℕ), (0 : ℕ))],
      attrEntropy ([([(1, 0)], 0), ([(1, 1)], 1)] : Exemplars ℕ ℕ ℕ) 1 ≤
        attrEntropy ([([(1, 0)], 0), ([(1, 1)], 1)] : Exemplars ℕ ℕ ℕ) a) ∧
    ∃ pre post, keysOf [((1 : ℕ), (0 : ℕ))] = pre ++ 1 :: post ∧
      ∀ a ∈ pre,
        attrEntropy ([([(1, 0)], 0), ([(1, 1)], 1)] : Exemplars ℕ ℕ ℕ) 1 <
          attrEntropy ([([(1, 0)], 0), ([(1, 1)], 1)] : Exemplars ℕ ℕ ℕ) a) :=
  ⟨by rfl,
    id3_selects_min_entropy 1 [(1, 0)] 0 [([(1, 1)], 1)] 1
      [(0, ID3Subtree.term (some 0)), (1, ID3Subtree.term (some 1))] (by rfl)⟩

/-! ### Claims C7 and C8: inference outcomes -/

theorem callNode_term_none [DecidableEq A] [DecidableEq V]
    (q : Assignment A V) :
    callNode (ID3Subtree.term (none : Option O)) q = InferResult.noResult := by
  simp [callNode]

theorem callNode_term_some [DecidableEq A] [DecidableEq V] (o : O)
    (q : Assignment A V) :
    callNode (ID3Subtree.term (some o)) q = InferResult.found o := by
  simp [callNode]

theorem callNode_node [DecidableEq A] [DecidableEq V] (name : A)
    (pairs : List (V × ID3Subtree A V O)) (q : Assignment A V) :
    callNode (ID3Subtree.node name pairs) q =
      match dictLookup q name with
      | none => InferResult.keyError
      | some v => callPairs pairs v q := by
  rw [callNode]

theorem callPairs_eq_get_subnode [DecidableEq A] [DecidableEq V]
    (pairs : List (V × ID3Subtree A V O)) (v : V) (q : Assignment A V) :
    callPairs pairs v q =
      match get_subnode_for_input pairs v with
      | none => InferResult.noResult
      | some sub => callNode sub q := by
  induction pairs with
  | nil => rfl
  | cons p rest ih =>
    obtain ⟨v0, sub⟩ := p
    rw [callPairs, get_subnode_for_input]
    by_cases hv : v = v0
    · simp [hv]
    · simp only [if_neg hv, ih]

theorem callNode_node_get_subnode [DecidableEq A] [DecidableEq V] (name : A)
    (pairs : List (V × ID3Subtree A V O)) (q : Assignment A V) :
    callNode (ID3Subtree.node name pairs) q =
      match dictLookup q name with
      | none => InferResult.keyError
      | some v =>
        match get_subnode_for_input pairs v with
        | none => InferResult.noResult
        | some sub => callNode sub q := by
  rw [callNode_node]
  cases dictLookup q name with
  | none => rfl
  | some v => simp only [callPairs_eq_get_subnode]

theorem sizeOf_get_subnode_lt [DecidableEq V]
    {pairs : List (V × ID3Subtree A V O)} {v : V} {sub : ID3Subtree A V O}
    (h : get_subnode_for_input pairs v = some sub) :
    sizeOf sub < sizeOf pairs := by
  induction pairs with
  | nil => simp [get_subnode_for_input] at h
  | cons p rest ih =>
    obtain ⟨pv, psub⟩ := p
    by_cases hv : v = pv
    · simp [get_subnode_for_input, hv] at h
      subst h
      simp
      omega
    · simp [get_subnode_for_input, hv] at h
      have := ih h
      simp
      omega

theorem reaches_trans [DecidableEq A] [DecidableEq V] {q : Assignment A V}
    {t u m : ID3Subtree A V O} (h1 : Reaches q t u) (h2 : Reaches q u m) :
    Reaches q t m := by
  induction h2 with
  | refl => exact h1
  | step _ hl hg ih => exact Reaches.step ih hl hg

theorem reaches_call_eq [DecidableEq A] [DecidableEq V] {q : Assignment A V}
    {t n : ID3Subtree A V O} (h : Reaches q t n) :
    callNode t q = callNode n q := by
  induction h with
  | refl => rfl
  | step _ hl hg ih =>
    rw [ih, callNode_node_get_subnode]
    simp only [hl, hg]

theorem callNode_keyError_iff [DecidableEq A] [DecidableEq V] :
    ∀ (t : ID3Subtree A V O) (q : Assignment A V),
      callNode t q = InferResult.keyError ↔
        ∃ name pairs, Reaches q t (ID3Subtree.node name pairs) ∧
          dictLookup q name = none := by
  have main : ∀ (n : ℕ) (t : ID3Subtree A V O), sizeOf t ≤ n →
      ∀ (q : Assignment A V), callNode t q = InferResult.keyError →
        ∃ name pairs, Reaches q t (ID3Subtree.node name pairs) ∧
          dictLookup q name = none := by
    intro n
    induction n with
    | zero =>
      intro t ht
      cases t with
      | term o => intro q h; cases o <;> simp [callNode] at h
      | node name pairs => simp at ht
    | succ m ih =>
      intro t ht q h
      cases t with
      | term o => cases o <;> simp [callNode] at h
      | node name pairs =>
        rw [callNode_node_get_subnode] at h
        cases hl : dictLookup q name with
        | none => exact ⟨name, pairs, Reaches.refl _, hl⟩
        | some v =>
          simp only [hl] at h
          cases hg : get_subnode_for_input pairs v with
          | none => simp only [hg] at h; simp at h
          | some sub =>
            simp only [hg] at h
            have hsz : sizeOf sub ≤ m := by
              have h1 := sizeOf_get_subnode_lt hg
              have h2 : sizeOf (ID3Subtree.node name pairs) =
                  1 + sizeOf name + sizeOf pairs := by simp
              omega
            obtain ⟨nm, pr, hre, hnone⟩ := ih sub hsz q h
            refine ⟨nm, pr, ?_, hnone⟩
            exact reaches_trans (Reaches.step (Reaches.refl _) hl hg) hre
  intro t q
  constructor
  · intro h
    exact main (sizeOf t) t (le_refl _) q h
  · rintro ⟨name, pairs, hre, hnone⟩
    rw [reaches_call_eq hre, callNode_node_get_subnode, hnone]

/-- Claim C8: inference raises a lookup error — propagated, not swallowed —
exactly when the traversal actually visits an internal node whose attribute
name the query assignment lacks; when every visited node's name is present,
no error is raised. -/
theorem infer_keyError_iff [DecidableEq A] [DecidableEq V]
    (t : ID3DecisionTree A V O) (q : Assignment A V) :
    treeCall t q = InferResult.keyError ↔
      ∃ name pairs, Reaches q t.root_node (ID3Subtree.node name pairs) ∧
        dictLookup q name = none :=
  callNode_keyError_iff t.root_node q

theorem get_subnode_eq_none [DecidableEq V]
    {pairs : List (V × ID3Subtree A V O)} {v : V}
    (h : ∀ p ∈ pairs, p.1 ≠ v) : get_subnode_for_input pairs v = none := by
  induction pairs with
  | nil => rfl
  | cons p rest ih =>
    obtain ⟨pv, psub⟩ := p
    have hp : pv ≠ v := h (pv, psub) (by simp)
    rw [get_subnode_for_input]
    rw [if_neg (fun hh => hp hh.symm)]
    exact ih (fun p hp2 => h p (by simp [hp2]))

/-- Claim C7: if the traversal of a tree built by `id3` visits a node whose
attribute the query does supply, but with a value recorded in none of that
node's pairs (a value never seen in training there), the inference result is
the explicit `None` sentinel — no error is raised — and the sentinel is
distinct from every output value. -/
theorem unseen_value_noResult [DecidableEq A] [DecidableEq V] [DecidableEq O]
    (exs : Exemplars A V O) (q : Assignment A V) :
    (∀ (name : A) (pairs : List (V × ID3Subtree A V O)) (v : V),
      Reaches q (id3 exs).root_node (ID3Subtree.node name pairs) →
      dictLookup q name = some v → (∀ p ∈ pairs, p.1 ≠ v) →
      treeCall (id3 exs) q = InferResult.noResult) ∧
    (∀ o : O, InferResult.noResult ≠ InferResult.found o) := by
  constructor
  · intro name pairs v hre hl hunseen
    rw [treeCall, reaches_call_eq hre, callNode_node_get_subnode]
    simp only [hl, get_subnode_eq_none hunseen]
  · intro o h
    simp at h

/-- Witness for `unseen_value_noResult`: querying the one-attribute tree
with the unseen value 5 yields the sentinel. -/
theorem unseen_value_noResult_witness :
    treeCall (id3 ([([(1, 0)], 0), ([(1, 1)], 1)] : Exemplars ℕ ℕ ℕ))
        [(1, 5)] = InferResult.noResult ∧
    (InferResult.noResult ≠ InferResult.found (0 : ℕ)) :=
  ⟨(unseen_value_noResult [([(1, 0)], 0), ([(1, 1)], 1)] [(1, 5)]).1 1
      [(0, ID3Subtree.term (some 0)), (1, ID3Subtree.term (some 1))] 5
      (Reaches.refl _) rfl (by decide),
    (unseen_value_noResult [([(1, 0)], 0), ([(1, 1)], 1)] [(1, 5)]).2 0⟩

/-! ### Claim C1: validate after build succeeds on consistent exemplars -/

theorem attrPartition_eq_groupOf [DecidableEq A] [DecidableEq V]
    (exs : Exemplars A V O) (attr : A) :
    attrPartition exs attr =
      (attrValues exs attr).map (fun v => (v, groupOf exs attr v)) := rfl

theorem all_eq_of_dedup_length_one [DecidableEq O] {l : List O}
    (h : l.dedup.length = 1) : ∀ x ∈ l, ∀ y ∈ l, x = y := by
  obtain ⟨a, ha⟩ := List.length_eq_one.mp h
  intro x hx y hy
  have hxd : x ∈ l.dedup := List.mem_dedup.mpr hx
  have hyd : y ∈ l.dedup := List.mem_dedup.mpr hy
  rw [ha] at hxd hyd
  simp at hxd hyd
  rw [hxd, hyd]

theorem exists_two_of_dedup_length_ne_one [DecidableEq O] {l : List O}
    (hne : l ≠ []) (h : l.dedup.length ≠ 1) :
    ∃ x ∈ l, ∃ y ∈ l, x ≠ y := by
  cases hd : l.dedup with
  | nil =>
    exact absurd ((List.dedup_eq_nil l).mp hd) hne
  | cons a rest =>
    cases rest with
    | nil => rw [hd] at h; simp at h
    | cons b rest2 =>
      have hnd := List.nodup_dedup (α := O) l
      rw [hd] at hnd
      have hab : a ≠ b := by
        rw [List.nodup_cons] at hnd
        exact fun hh => hnd.1 (hh ▸ (by simp))
      have ha : a ∈ l := List.mem_dedup.mp (by rw [hd]; simp)
      have hb : b ∈ l := List.mem_dedup.mp (by rw [hd]; simp)
      exact ⟨a, ha, b, hb, hab⟩

theorem get_subnode_map [DecidableEq V] (g : V → ID3Subtree A V O) :
    ∀ (vals : List V), vals.Nodup → ∀ v ∈ vals,
      get_subnode_for_input (vals.map (fun u => (u, g u))) v = some (g v) := by
  intro vals
  induction vals with
  | nil => intro _ v hv; simp at hv
  | cons u rest ih =>
    intro hnd v hv
    rw [List.map_cons, get_subnode_for_input]
    by_cases hvu : v = u
    · rw [if_pos hvu, hvu]
    · rw [if_neg hvu]
      rcases List.mem_cons.mp hv with h1 | h2
      · exact absurd h1 hvu
      · exact ih (List.nodup_cons.mp hnd).2 v h2

theorem dictEq_of_pop [DecidableEq A] [DecidableEq V] {x y : Assignment A V}
    {b : A} {v : V} (hxn : (keysOf x).Nodup) (hyn : (keysOf y).Nodup)
    (hx : dictLookup x b = some v) (hy : dictLookup y b = some v)
    (h : dictEq (dictPop x b) (dictPop y b) = true) : dictEq x y = true := by
  rw [dictEq_iff_lookup_eq hxn hyn]
  rw [dictEq_iff_lookup_eq (nodup_keys_pop x b hxn) (nodup_keys_pop y b hyn)]
    at h
  intro k
  by_cases hk : k = b
  · rw [hk, hx, hy]
  · have hk2 := h k
    rw [dictLookup_pop, dictLookup_pop, if_neg hk, if_neg hk] at hk2
    exact hk2

theorem mem_attrValues_of_lookup [DecidableEq A] [DecidableEq V]
    {exs : Exemplars A V O} {e : Assignment A V × O} (he : e ∈ exs) {attr : A}
    {v : V} (hl : dictLookup e.1 attr = some v) : v ∈ attrValues exs attr :=
  List.mem_dedup.mpr (List.mem_filterMap.mpr ⟨e, he, hl⟩)

theorem mem_groupOf_of_lookup [DecidableEq A] [DecidableEq V]
    {exs : Exemplars A V O} {e : Assignment A V × O} (he : e ∈ exs) {attr : A}
    {v : V} (hl : dictLookup e.1 attr = some v) :
    (dictPop e.1 attr, e.2) ∈ groupOf exs attr v :=
  List.mem_filterMap.mpr ⟨e, he, by simp [hl]⟩

theorem groupOf_mem_attrPartition [DecidableEq A] [DecidableEq V]
    {exs : Exemplars A V O} {attr : A} {v : V}
    (hv : v ∈ attrValues exs attr) :
    (v, groupOf exs attr v) ∈ attrPartition exs attr := by
  rw [attrPartition_eq_groupOf]
  exact List.mem_map.mpr ⟨v, hv, rfl⟩

theorem id3_infer_exemplar [DecidableEq A] [DecidableEq V] [DecidableEq O] :
    ∀ (fuel : ℕ) (exs : Exemplars A V O),
      maxLen exs < fuel →
      (∀ e ∈ exs, (keysOf e.1).Nodup) →
      (∀ e ∈ exs, ∀ e' ∈ exs, ∀ k, k ∈ keysOf e.1 → k ∈ keysOf e'.1) →
      (∀ e ∈ exs, ∀ e' ∈ exs, dictEq e.1 e'.1 = true → e.2 = e'.2) →
      ∀ (d : Assignment A V) (o : O), (d, o) ∈ exs →
      ∀ (q : Assignment A V),
        (∀ k v, dictLookup d k = some v → dictLookup q k = some v) →
        callNode (id3_helper fuel exs) q = InferResult.found o := by
  intro fuel
  induction fuel with
  | zero => intro exs h1; omega
  | succ n ih =>
    intro exs hfuel hnodup hkeys hfun d o hmem q hq
    show callNode (id3_step (id3_helper n) exs) q = InferResult.found o
    cases exs with
    | nil => simp at hmem
    | cons e0 rest =>
      obtain ⟨d0, o0⟩ := e0
      rw [id3_step]
      by_cases hlen : ((outputsOf ((d0, o0) :: rest)).dedup).length = 1
      · rw [if_pos hlen]
        have ho : o = o0 := by
          refine all_eq_of_dedup_length_one hlen o ?_ o0 ?_
          · exact List.mem_map.mpr ⟨(d, o), hmem, rfl⟩
          · exact List.mem_map.mpr ⟨(d0, o0), by simp, rfl⟩
        rw [ho]
        exact callNode_term_some o0 q
      · rw [if_neg hlen]
        have hsame : ¬ inputsAllSame ((d0, o0) :: rest) = true := by
          intro hs
          obtain ⟨x, hx, y, hy, hxy⟩ := exists_two_of_dedup_length_ne_one
            (show outputsOf ((d0, o0) :: rest) ≠ [] by simp [outputsOf]) hlen
          obtain ⟨ex, hex, hx2⟩ := List.mem_map.mp hx
          obtain ⟨ey, hey, hy2⟩ := List.mem_map.mp hy
          rw [inputsAllSame, List.all_eq_true] at hs
          have hs2 := hs ex hex
          rw [List.all_eq_true] at hs2
          have heq := hfun ex hex ey hey (hs2 ey hey)
          rw [hx2, hy2] at heq
          exact hxy heq
        rw [if_neg hsame]
        cases hbest : bestAttrFold ((d0, o0) :: rest) (keysOf d0) with
        | none =>
          exfalso
          have hd0 : keysOf d0 = [] := by
            rcases bestAttrFold_spec ((d0, o0) :: rest) (keysOf d0) with
              ⟨hnil, _⟩ | ⟨b', h1, _⟩
            · exact hnil
            · rw [h1] at hbest; exact absurd hbest (by simp)
          have hall : ∀ e ∈ (d0, o0) :: rest, e.1 = ([] : Assignment A V) := by
            intro e he
            cases hel : e.1 with
            | nil => rfl
            | cons p pr =>
              exfalso
              have hp : p.1 ∈ keysOf e.1 := by rw [hel]; simp [keysOf]
              have := hkeys e he (d0, o0) (by simp) p.1 hp
              rw [hd0] at this
              simp at this
          apply hsame
          rw [inputsAllSame, List.all_eq_true]
          intro e he
          rw [List.all_eq_true]
          intro e' he'
          rw [hall e he, hall e' he']
          rfl
        | some bw =>
          obtain ⟨b, w⟩ := bw
          simp only [hbest]
          have hbmem : b ∈ keysOf d0 := by
            rcases bestAttrFold_spec ((d0, o0) :: rest) (keysOf d0) with
              ⟨_, hnone⟩ | ⟨b', h1, _, pre, post, hspl, _⟩
            · rw [hnone] at hbest; exact absurd hbest (by simp)
            · rw [h1] at hbest
              have hb' : b' = b := ((Prod.mk.injEq _ _ _ _).mp
                (Option.some.inj hbest)).1
              rw [← hb', hspl]
              simp
          have hbd : b ∈ keysOf d :=
            hkeys (d0, o0) (by simp) (d, o) hmem b hbmem
          obtain ⟨v, hv⟩ := Option.isSome_iff_exists.mp
            ((dictLookup_isSome_iff_mem_keys d b).mpr hbd)
          have hqv : dictLookup q b = some v := hq b v hv
          have hvmem : v ∈ attrValues ((d0, o0) :: rest) b :=
            mem_attrValues_of_lookup hmem hv
          rw [callNode_node_get_subnode]
          simp only [hqv]
          have hpairs : (attrPartition ((d0, o0) :: rest) b).map
              (fun p => (p.1, id3_helper n p.2)) =
              (attrValues ((d0, o0) :: rest) b).map
                (fun u => (u, id3_helper n (groupOf ((d0, o0) :: rest) b u))) := by
            rw [attrPartition_eq_groupOf, List.map_map]
            rfl
          rw [hpairs,
            get_subnode_map _ _ (show (attrValues ((d0, o0) :: rest) b).Nodup
              from List.nodup_dedup _) v hvmem]
          have hvp : ((v, groupOf ((d0, o0) :: rest) b v) : V × Exemplars A V O)
              ∈ attrPartition ((d0, o0) :: rest) b :=
            groupOf_mem_attrPartition hvmem
          apply ih (groupOf ((d0, o0) :: rest) b v)
          · exact maxLen_attrPartition_lt hvp (by omega)
          · intro e' he'
            obtain ⟨e, he, _, heq⟩ := mem_of_mem_attrPartition hvp he'
            rw [heq]
            exact nodup_keys_pop e.1 b (hnodup e he)
          · intro e' he' e'' he'' k hk
            obtain ⟨e, he, _, heq⟩ := mem_of_mem_attrPartition hvp he'
            obtain ⟨f, hf, _, hfeq⟩ := mem_of_mem_attrPartition hvp he''
            rw [heq] at hk
            rw [hfeq]
            simp only at hk ⊢
            rw [mem_keys_pop] at hk ⊢
            exact ⟨hkeys e he f hf k hk.1, hk.2⟩
          · intro e' he' e'' he'' heq2
            obtain ⟨e, he, hel, heq⟩ := mem_of_mem_attrPartition hvp he'
            obtain ⟨f, hf, hfl, hfeq⟩ := mem_of_mem_attrPartition hvp he''
            rw [heq, hfeq] at heq2
            simp only at heq2
            have := hfun e he f hf
              (dictEq_of_pop (hnodup e he) (hnodup f hf) hel hfl heq2)
            rw [heq, hfeq]
            simpa using this
          · exact mem_groupOf_of_lookup hmem hv
          · intro k kv hk
            rw [dictLookup_pop] at hk
            by_cases hkb : k = b
            · rw [if_pos hkb] at hk; exact absurd hk (by simp)
            · rw [if_neg hkb] at hk
              exact hq k kv hk

theorem validate_of_all_found [DecidableEq A] [DecidableEq V] [DecidableEq O]
    (t : ID3DecisionTree A V O) :
    ∀ (l : Exemplars A V O),
      (∀ e ∈ l, treeCall t e.1 = InferResult.found e.2) →
      validate t l = some true := by
  intro l
  induction l with
  | nil => intro _; rfl
  | cons e rest ih =>
    intro h
    obtain ⟨d, o⟩ := e
    rw [validate]
    have he := h (d, o) (by simp)
    simp only at he
    rw [he]
    simp only [if_pos rfl]
    exact ih (fun e2 he2 => h e2 (by simp [he2]))

/-- Claim C1: for exemplars whose assignments all use the same attribute
names (with dict-unique keys) and in which equal assignments always carry
equal outputs (no conflicting duplicates), validating the tree that `id3`
builds against the same exemplars returns `True`. -/
theorem id3_validate_consistent [DecidableEq A] [DecidableEq V] [DecidableEq O]
    (exs : Exemplars A V O)
    (hnodup : ∀ e ∈ exs, (keysOf e.1).Nodup)
    (hkeys : ∀ e ∈ exs, ∀ e' ∈ exs, ∀ k, k ∈ keysOf e.1 → k ∈ keysOf e'.1)
    (hfun : ∀ e ∈ exs, ∀ e' ∈ exs, dictEq e.1 e'.1 = true → e.2 = e'.2) :
    validate (id3 exs) exs = some true := by
  apply validate_of_all_found
  intro e he
  obtain ⟨d, o⟩ := e
  show callNode (id3_helper (maxLen exs + 1) exs) d = InferResult.found o
  exact id3_infer_exemplar (maxLen exs + 1) exs (by omega) hnodup hkeys hfun
    d o he d (fun _ _ hh => hh)

/-- Witness for `id3_validate_consistent` at the 2-input OR exemplars of the
source's doctest. -/
theorem id3_validate_consistent_witness :
    (∀ e ∈ ([([(1, 0), (2, 0)], 0), ([(1, 0), (2, 1)], 1),
        ([(1, 1), (2, 0)], 1), ([(1, 1), (2, 1)], 1)] : Exemplars ℕ ℕ ℕ),
      (keysOf e.1).Nodup) ∧
    (∀ e ∈ ([([(1, 0), (2, 0)], 0), ([(1, 0), (2, 1)], 1),
        ([(1, 1), (2, 0)], 1), ([(1, 1), (2, 1)], 1)] : Exemplars ℕ ℕ ℕ),
      ∀ e' ∈ ([([(1, 0), (2, 0)], 0), ([(1, 0), (2, 1)], 1),
        ([(1, 1), (2, 0)], 1), ([(1, 1), (2, 1)], 1)] : Exemplars ℕ ℕ ℕ),
      ∀ k, k ∈ keysOf e.1 → k ∈ keysOf e'.1) ∧
    (∀ e ∈ ([([(1, 0), (2, 0)], 0), ([(1, 0), (2, 1)], 1),
        ([(1, 1), (2, 0)], 1), ([(1, 1), (2, 1)], 1)] : Exemplars ℕ ℕ ℕ),
      ∀ e' ∈ ([([(1, 0), (2, 0)], 0), ([(1, 0), (2, 1)], 1),
        ([(1, 1), (2, 0)], 1), ([(1, 1), (2, 1)], 1)] : Exemplars ℕ ℕ ℕ),
      dictEq e.1 e'.1 = true → e.2 = e'.2) ∧
    validate
      (id3 ([([(1, 0), (2, 0)], 0), ([(1, 0), (2, 1)], 1),
        ([(1, 1), (2, 0)], 1), ([(1, 1), (2, 1)], 1)] : Exemplars ℕ ℕ ℕ))
      ([([(1, 0), (2, 0)], 0), ([(1, 0), (2, 1)], 1),
        ([(1, 1), (2, 0)], 1), ([(1, 1), (2, 1)], 1)] : Exemplars ℕ ℕ ℕ) =
      some true :=
  ⟨by decide, by decide, by decide,
    id3_validate_consistent
      [([(1, 0), (2, 0)], 0), ([(1, 0), (2, 1)], 1),
        ([(1, 1), (2, 0)], 1), ([(1, 1), (2, 1)], 1)]
      (by decide) (by decide) (by decide)⟩

/-! ### Claim C6: invert/infer consistency -/

theorem mem_allKeysOf {exs : Exemplars A V O} {k : A} :
    k ∈ allKeysOf exs ↔ ∃ e ∈ exs, k ∈ keysOf e.1 := by
  induction exs with
  | nil => simp [allKeysOf]
  | cons e rest ih =>
    rw [allKeysOf, List.foldr_cons, List.mem_append]
    rw [allKeysOf] at ih
    constructor
    · intro h
      rcases h with h1 | h2
      · exact ⟨e, by simp, h1⟩
      · obtain ⟨f, hf, hk⟩ := ih.mp h2
        exact ⟨f, by simp [hf], hk⟩
    · rintro ⟨f, hf, hk⟩
      rcases List.mem_cons.mp hf with h1 | h2
      · subst h1; exact Or.inl hk
      · exact Or.inr (ih.mpr ⟨f, h2, hk⟩)

theorem mem_pairsNames_of_mem {pairs : List (V × ID3Subtree A V O)} {v : V}
    {sub : ID3Subtree A V O} (hmem : (v, sub) ∈ pairs) {k : A}
    (hk : k ∈ treeNames sub) : k ∈ pairsNames pairs := by
  induction pairs with
  | nil => simp at hmem
  | cons p rest ih =>
    obtain ⟨v0, s0⟩ := p
    rw [pairsNames, List.mem_append]
    rcases List.mem_cons.mp hmem with h1 | h2
    · have hs : sub = s0 := ((Prod.mk.injEq _ _ _ _).mp h1).2
      exact Or.inl (hs ▸ hk)
    · exact Or.inr (ih h2)

theorem pairsNames_map_mem {l : List (V × Exemplars A V O)}
    {f : Exemplars A V O → ID3Subtree A V O} {k : A}
    (h : k ∈ pairsNames (l.map (fun p => (p.1, f p.2)))) :
    ∃ p ∈ l, k ∈ treeNames (f p.2) := by
  induction l with
  | nil => simp [pairsNames] at h
  | cons p rest ih =>
    rw [List.map_cons, pairsNames, List.mem_append] at h
    rcases h with h1 | h2
    · exact ⟨p, by simp, h1⟩
    · obtain ⟨p2, hp2, hk⟩ := ih h2
      exact ⟨p2, by simp [hp2], hk⟩

theorem treeNames_id3_sub_allKeys [DecidableEq A] [DecidableEq V]
    [DecidableEq O] :
    ∀ (fuel : ℕ) (exs : Exemplars A V O) (k : A),
      k ∈ treeNames (id3_helper fuel exs) → k ∈ allKeysOf exs := by
  intro fuel
  induction fuel with
  | zero => intro exs k h; simp [id3_helper, treeNames] at h
  | succ n ih =>
    intro exs k h
    have h' : k ∈ treeNames (id3_step (id3_helper n) exs) := h
    cases exs with
    | nil => simp [id3_step, treeNames] at h'
    | cons e0 rest =>
      obtain ⟨d0, o0⟩ := e0
      rw [id3_step] at h'
      by_cases hlen : ((outputsOf ((d0, o0) :: rest)).dedup).length = 1
      · rw [if_pos hlen] at h'; simp [treeNames] at h'
      · rw [if_neg hlen] at h'
        by_cases hsame : inputsAllSame ((d0, o0) :: rest) = true
        · rw [if_pos hsame] at h'; simp [treeNames] at h'
        · rw [if_neg hsame] at h'
          cases hbest : bestAttrFold ((d0, o0) :: rest) (keysOf d0) with
          | none => rw [hbest] at h'; simp [treeNames] at h'
          | some bw =>
            obtain ⟨b, w⟩ := bw
            rw [hbest] at h'
            simp only at h'
            rw [treeNames] at h'
            rcases List.mem_cons.mp h' with h1 | h2
            · have hb : b ∈ keysOf d0 := by
                rcases bestAttrFold_spec ((d0, o0) :: rest) (keysOf d0) with
                  ⟨_, hnone⟩ | ⟨b', hsome, _, pre, post, hspl, _⟩
                · rw [hnone] at hbest; exact absurd hbest (by simp)
                · rw [hsome] at hbest
                  have hb' : b' = b := ((Prod.mk.injEq _ _ _ _).mp
                    (Option.some.inj hbest)).1
                  rw [← hb', hspl]; simp
              exact mem_allKeysOf.mpr ⟨(d0, o0), by simp, by rw [h1]; exact hb⟩
            · obtain ⟨vp, hvp, hk⟩ := pairsNames_map_mem h2
              have hsub := ih vp.2 k hk
              obtain ⟨e', he', hke⟩ := mem_allKeysOf.mp hsub
              obtain ⟨e, he, _, heq⟩ := mem_of_mem_attrPartition hvp he'
              rw [heq] at hke
              simp only at hke
              rw [mem_keys_pop] at hke
              exact mem_allKeysOf.mpr ⟨e, he, hke.1⟩

theorem attrPartition_map_fst [DecidableEq A] [DecidableEq V]
    (exs : Exemplars A V O) (attr : A) :
    (attrPartition exs attr).map Prod.fst = attrValues exs attr := by
  rw [attrPartition_eq_groupOf, List.map_map]
  exact List.map_id _

theorem id3_WF [DecidableEq A] [DecidableEq V] [DecidableEq O] :
    ∀ (fuel : ℕ) (exs : Exemplars A V O), WFSubtree (id3_helper fuel exs) := by
  intro fuel
  induction fuel with
  | zero => intro exs; exact WFSubtree.term none
  | succ n ih =>
    intro exs
    show WFSubtree (id3_step (id3_helper n) exs)
    cases exs with
    | nil => exact WFSubtree.term none
    | cons e0 rest =>
      obtain ⟨d0, o0⟩ := e0
      rw [id3_step]
      by_cases hlen : ((outputsOf ((d0, o0) :: rest)).dedup).length = 1
      · rw [if_pos hlen]; exact WFSubtree.term _
      · rw [if_neg hlen]
        by_cases hsame : inputsAllSame ((d0, o0) :: rest) = true
        · rw [if_pos hsame]; exact WFSubtree.term _
        · rw [if_neg hsame]
          cases hbest : bestAttrFold ((d0, o0) :: rest) (keysOf d0) with
          | none => exact WFSubtree.term none
          | some bw =>
            obtain ⟨b, w⟩ := bw
            refine WFSubtree.node b _ ?_ ?_ ?_
            · rw [List.map_map]
              have : (Prod.fst ∘ fun p : V × Exemplars A V O =>
                  (p.1, id3_helper n p.2)) = Prod.fst := rfl
              rw [this, attrPartition_map_fst]
              exact List.nodup_dedup _
            · intro p hp
              obtain ⟨vp, _, hpe⟩ := List.mem_map.mp hp
              rw [← hpe]
              exact ih vp.2
            · intro p hp hbn
              obtain ⟨vp, hvp, hpe⟩ := List.mem_map.mp hp
              rw [← hpe] at hbn
              simp only at hbn
              have := treeNames_id3_sub_allKeys n vp.2 b hbn
              obtain ⟨e', he', hke⟩ := mem_allKeysOf.mp this
              obtain ⟨e, _, _, heq⟩ := mem_of_mem_attrPartition hvp he'
              rw [heq] at hke
              simp only at hke
              rw [mem_keys_pop] at hke
              exact hke.2 rfl

theorem sizeOf_sub_lt_of_mem {pairs : List (V × ID3Subtree A V O)} {v : V}
    {sub : ID3Subtree A V O} (h : (v, sub) ∈ pairs) :
    sizeOf sub < sizeOf pairs := by
  have h1 := List.sizeOf_lt_of_mem h
  have h2 : sizeOf (v, sub) = 1 + sizeOf v + sizeOf sub := rfl
  omega

theorem mem_getInputsPairs [DecidableEq A] [DecidableEq V] [DecidableEq O]
    {o : O} {name : A} {a input : Assignment A V} :
    ∀ {pairs : List (V × ID3Subtree A V O)},
      a ∈ getInputsPairs o name pairs input →
      ∃ v sub, (v, sub) ∈ pairs ∧
        ((∃ n2 ps2, sub = ID3Subtree.node n2 ps2 ∧
          a ∈ getInputs o sub (dictInsert input name v)) ∨
         (sub = ID3Subtree.term (some o) ∧ a = dictInsert input name v)) := by
  intro pairs
  induction pairs with
  | nil => intro h; simp [getInputsPairs] at h
  | cons p rest ih =>
    intro h
    obtain ⟨v0, sub0⟩ := p
    rw [getInputsPairs.eq_def] at h
    simp only [List.mem_append] at h
    rcases h with h1 | h2
    · refine ⟨v0, sub0, by simp, ?_⟩
      cases sub0 with
      | term t =>
        simp only at h1
        by_cases ht : t = some o
        · rw [if_pos ht] at h1
          simp at h1
          exact Or.inr ⟨by rw [ht], h1⟩
        · rw [if_neg ht] at h1; simp at h1
      | node n2 ps2 =>
        exact Or.inl ⟨n2, ps2, rfl, h1⟩
    · obtain ⟨v, sub, hmem, hrest⟩ := ih h2
      exact ⟨v, sub, by simp [hmem], hrest⟩

theorem getInputs_extends [DecidableEq A] [DecidableEq V] [DecidableEq O]
    {o : O} :
    ∀ (n : ℕ) (t : ID3Subtree A V O), sizeOf t ≤ n →
      ∀ (input a : Assignment A V), a ∈ getInputs o t input →
      ∀ (k : A) (w : V), dictLookup input k = some w → k ∉ treeNames t →
        dictLookup a k = some w := by
  intro n
  induction n with
  | zero =>
    intro t ht
    cases t with
    | term tt => intro input a ha; simp [getInputs] at ha
    | node name pairs => simp at ht
  | succ m ih =>
    intro t ht input a ha k w hw hk
    cases t with
    | term tt => simp [getInputs] at ha
    | node name pairs =>
      rw [getInputs] at ha
      obtain ⟨v, sub, hmem, hcase⟩ := mem_getInputsPairs ha
      rw [treeNames] at hk
      have hkname : k ≠ name := fun hh => hk (hh ▸ (by simp))
      have hksub : k ∉ treeNames sub := fun hh =>
        hk (List.mem_cons.mpr (Or.inr (mem_pairsNames_of_mem hmem hh)))
      have hw' : dictLookup (dictInsert input name v) k = some w := by
        rw [dictLookup_insert, if_neg hkname]
        exact hw
      rcases hcase with ⟨n2, ps2, hsub, ha2⟩ | ⟨hsub, ha2⟩
      · have hsz : sizeOf sub ≤ m := by
          have := sizeOf_sub_lt_of_mem hmem
          have h2 : sizeOf (ID3Subtree.node name pairs) =
              1 + sizeOf name + sizeOf pairs := by simp
          omega
        exact ih sub hsz (dictInsert input name v) a ha2 k w hw' hksub
      · rw [ha2]
        exact hw'

theorem get_subnode_of_mem_nodup [DecidableEq V]
    {pairs : List (V × ID3Subtree A V O)} {v : V} {sub : ID3Subtree A V O}
    (hnd : (pairs.map Prod.fst).Nodup) (hmem : (v, sub) ∈ pairs) :
    get_subnode_for_input pairs v = some sub := by
  induction pairs with
  | nil => simp at hmem
  | cons p rest ih =>
    obtain ⟨v0, s0⟩ := p
    rw [List.map_cons, List.nodup_cons] at hnd
    rw [get_subnode_for_input]
    rcases List.mem_cons.mp hmem with h1 | h2
    · obtain ⟨hv, hs⟩ := (Prod.mk.injEq _ _ _ _).mp h1
      rw [if_pos hv, hs]
    · have hv0 : v ≠ v0 := by
        intro hh
        exact hnd.1 (hh ▸ List.mem_map.mpr ⟨(v, sub), h2, rfl⟩)
      rw [if_neg hv0]
      exact ih hnd.2 h2

theorem getInputs_infer [DecidableEq A] [DecidableEq V] [DecidableEq O]
    {o : O} :
    ∀ (n : ℕ) (t : ID3Subtree A V O), sizeOf t ≤ n → WFSubtree t →
      ∀ (input a : Assignment A V), a ∈ getInputs o t input →
      ∀ (q : Assignment A V),
        (∀ k w, dictLookup a k = some w → dictLookup q k = some w) →
        callNode t q = InferResult.found o := by
  intro n
  induction n with
  | zero =>
    intro t ht
    cases t with
    | term tt => intro _ input a ha; simp [getInputs] at ha
    | node name pairs => simp at ht
  | succ m ih =>
    intro t ht hwf input a ha q hq
    cases t with
    | term tt => simp [getInputs] at ha
    | node name pairs =>
      rw [getInputs] at ha
      obtain ⟨v, sub, hmem, hcase⟩ := mem_getInputsPairs ha
      cases hwf with
      | node _ _ hvals hsub hname =>
        have hsz : sizeOf sub ≤ m := by
          have := sizeOf_sub_lt_of_mem hmem
          have h2 : sizeOf (ID3Subtree.node name pairs) =
              1 + sizeOf name + sizeOf pairs := by simp
          omega
        have hlookup : dictLookup a name = some v := by
          rcases hcase with ⟨n2, ps2, hsubeq, ha2⟩ | ⟨hsubeq, ha2⟩
          · refine getInputs_extends m sub hsz (dictInsert input name v) a ha2
              name v ?_ (hname (v, sub) hmem)
            rw [dictLookup_insert, if_pos rfl]
          · rw [ha2, dictLookup_insert, if_pos rfl]
        have hqv : dictLookup q name = some v := hq name v hlookup
        rw [callNode_node_get_subnode]
        simp only [hqv, get_subnode_of_mem_nodup hvals hmem]
        rcases hcase with ⟨n2, ps2, hsubeq, ha2⟩ | ⟨hsubeq, ha2⟩
        · exact ih sub hsz (hsub (v, sub) hmem) (dictInsert input name v) a
            ha2 q hq
        · rw [hsubeq]
          exact callNode_term_some o q

/-- Claim C6: every assignment returned by the inverse query
`get_inputs_for_output` of a tree built by `id3`, extended arbitrarily with
values for attribute names it omits, infers exactly the queried output on
that tree. -/
theorem invert_infer_consistent [DecidableEq A] [DecidableEq V] [DecidableEq O]
    (exs : Exemplars A V O) (o : O) (a q : Assignment A V)
    (ha : a ∈ get_inputs_for_output (id3 exs) o)
    (hq : ∀ k w, dictLookup a k = some w → dictLookup q k = some w) :
    treeCall (id3 exs) q = InferResult.found o := by
  have hwf : WFSubtree ((id3 exs).root_node) := id3_WF (maxLen exs + 1) exs
  rw [get_inputs_for_output] at ha
  rw [treeCall]
  cases hroot : (id3 exs).root_node with
  | term t =>
    rw [hroot] at ha
    simp at ha
  | node name pairs =>
    rw [hroot] at ha hwf
    simp only at ha
    exact getInputs_infer (sizeOf (ID3Subtree.node name pairs))
      (ID3Subtree.node name pairs) (le_refl _) hwf [] a ha q hq

/-- Witness for `invert_infer_consistent`: the inverse image of output 1 in
the one-attribute tree is the assignment mapping attribute 1 to value 1,
which infers 1. -/
theorem invert_infer_consistent_witness :
    ([(1, 1)] ∈ get_inputs_for_output
      (id3 ([([(1, 0)], 0), ([(1, 1)], 1)] : Exemplars ℕ ℕ ℕ)) 1) ∧
    treeCall (id3 ([([(1, 0)], 0), ([(1, 1)], 1)] : Exemplars ℕ ℕ ℕ))
      [(1, 1)] = InferResult.found 1 :=
  ⟨by decide,
    invert_infer_consistent [([(1, 0)], 0), ([(1, 1)], 1)] 1 [(1, 1)] [(1, 1)]
      (by decide) (fun _ _ hh => hh)⟩

end ID3
